import Mathlib

/-!
Formula builder: expression evaluator, variable resolver, formula execution.

A shallow embedding of `src/utils/expressionEvaluator.js`,
`src/utils/variableResolver.js` and `performExecution` of
`src/components/FormulasSection.jsx`.

Conventions of the embedding:

* a JavaScript string is the list of its characters (`Text`);
* a JavaScript number is an IEEE 754 double (`Num`): a finite double is the
  rational it stands for, and every literal and every arithmetical result is
  rounded to the nearest double, ties to even, with overflow to `Infinity`;
  the two zeros are one value, since the program never tells them apart (it
  tests a divisor with `=== 0` before it divides and prints both as `0`);
* `throw new Error(msg)` is `Except.error msg` with the message text;
* the objects used as dictionaries (`map`, `values`, `errors`,
  `contextValues`) are association lists, the latest assignment first; this is
  exact for the names of the data model, which are uppercase identifiers and so
  never collide with a property inherited from `Object.prototype` and never are
  integer-like keys; reading `contextValues` has the case of the name
  `__proto__` written out (`contextValue`);
* the recursion of `resolve` is bounded by a fuel argument; running out of it
  is an outcome of its own (`Res.diverge`), which `resolveVariables` is proved
  never to meet.
-/

namespace FormulaBuilder

/-- A JavaScript string. -/
abbrev Text := List Char

deriving instance DecidableEq for Except

/-! ## Character classes -/

/-- The class `[0-9]`. -/
def isDigit (c : Char) : Bool := decide (48 ≤ c.toNat) && decide (c.toNat ≤ 57)

/-- The class `[A-Z]`. -/
def isUpper (c : Char) : Bool := decide (65 ≤ c.toNat) && decide (c.toNat ≤ 90)

/-- The class `[a-z]`. -/
def isLower (c : Char) : Bool := decide (97 ≤ c.toNat) && decide (c.toNat ≤ 122)

/-- The class `\w`, that is `[A-Za-z0-9_]`. -/
def isWordChar (c : Char) : Bool := isUpper c || isLower c || isDigit c || c == '_'

/-- The class `[A-Z0-9_]`. -/
def isIdentChar (c : Char) : Bool := isUpper c || isDigit c || c == '_'

/-- The class `\s` of JavaScript regular expressions, which is also what
`String.prototype.trim` removes. -/
def isSpace (c : Char) : Bool :=
  let n := c.toNat
  n == 9 || n == 10 || n == 11 || n == 12 || n == 13 || n == 32 || n == 160 ||
  n == 5760 || (decide (8192 ≤ n) && decide (n ≤ 8202)) || n == 8232 || n == 8233 ||
  n == 8239 || n == 8287 || n == 12288 || n == 65279

/-- The class `[0-9.]`. -/
def isNumChar (c : Char) : Bool := isDigit c || c == '.'

/-- The test `"+-*/()".includes(ch)` for a one-character string `ch`. -/
def isOpOrParen (c : Char) : Bool :=
  c == '+' || c == '-' || c == '*' || c == '/' || c == '(' || c == ')'

/-- The complement of the class `[^0-9+\-*/().]`. -/
def isAllowed (c : Char) : Bool := isNumChar c || isOpOrParen c

/-! ## Numbers -/

/-- Value of a run of decimal digits, most significant first. -/
def digitsVal (ds : Text) : Nat := ds.foldl (fun acc c => acc * 10 + (c.toNat - 48)) 0

/-- Value of `intPart . fracPart`. -/
def decimalVal (ip fp : Text) : ℚ := (digitsVal ip : ℚ) + (digitsVal fp : ℚ) / (10 : ℚ) ^ fp.length

/-- The longest prefix of digits, and the rest. -/
def spanDigits : Text → Text × Text
  | [] => ([], [])
  | c :: cs => if isDigit c then ((spanDigits cs).1.cons c, (spanDigits cs).2) else ([], c :: cs)

/-- Optional exponent part `[eE][+-]?[0-9]+` at the head of the text: the power
of ten it stands for, or none when there is no complete exponent part. -/
def parseExponent : Text → Option ℤ
  | c :: cs =>
    if c == 'e' || c == 'E' then
      match cs with
      | '+' :: ds => if (spanDigits ds).1 = [] then none else some (digitsVal (spanDigits ds).1 : ℤ)
      | '-' :: ds => if (spanDigits ds).1 = [] then none else some (-(digitsVal (spanDigits ds).1 : ℤ))
      | ds => if (spanDigits ds).1 = [] then none else some (digitsVal (spanDigits ds).1 : ℤ)
    else none
  | [] => none

/-- Unsigned part of `parseFloat`: the longest prefix that is a decimal literal
(`digits`, `digits.`, `digits.digits`, `.digits`, each with an optional
exponent), as the exact value it denotes; `none` when there is no literal. -/
def parseUnsigned (s : Text) : Option ℚ :=
  let ip := (spanDigits s).1
  let r := (spanDigits s).2
  match r with
  | '.' :: r1 =>
    let fp := (spanDigits r1).1
    let r2 := (spanDigits r1).2
    if ip = [] && fp = [] then none
    else some (decimalVal ip fp * (10 : ℚ) ^ ((parseExponent r2).getD 0))
  | _ =>
    if ip = [] then none
    else some (decimalVal ip [] * (10 : ℚ) ^ ((parseExponent r).getD 0))

/-- A JavaScript number: a finite double as the rational it stands for (both
zeros are `fin 0`), an infinity with its sign, or `NaN`. -/
inductive Num where
  | fin (q : ℚ)
  | inf (negative : Bool)
  | nan
deriving DecidableEq

/-- Number of binary digits of a natural number, counted with fuel. -/
def bitLength : Nat → Nat → Nat
  | 0, _ => 0
  | fuel + 1, n => if n = 0 then 0 else bitLength fuel (n / 2) + 1

/-- The binary exponent of a positive rational `a`: the `e` such that
`2 ^ e ≤ a < 2 ^ (e + 1)`. -/
def log2Floor (a : ℚ) : ℤ :=
  if a < (2 : ℚ) ^ ((bitLength a.num.natAbs a.num.natAbs : ℤ) - (bitLength a.den a.den : ℤ)) then
    (bitLength a.num.natAbs a.num.natAbs : ℤ) - (bitLength a.den a.den : ℤ) - 1
  else (bitLength a.num.natAbs a.num.natAbs : ℤ) - (bitLength a.den a.den : ℤ)

/-- The integer part of a rational that is not negative. -/
def floorNat (t : ℚ) : Nat := t.num.toNat / t.den

/-- The nearest integer to a rational that is not negative, a tie going to the
even one. -/
def roundHalfEven (t : ℚ) : Nat :=
  if t - (floorNat t : ℚ) < 1 / 2 then floorNat t
  else if 1 / 2 < t - (floorNat t : ℚ) then floorNat t + 1
  else if floorNat t % 2 = 0 then floorNat t
  else floorNat t + 1

/-- The distance between neighbouring doubles at a positive rational: 53
significant bits, and the fixed step `2 ^ -1074` in the subnormal range. -/
def ulpOf (a : ℚ) : ℚ :=
  if log2Floor a < -1022 then (2 : ℚ) ^ (-1074 : ℤ) else (2 : ℚ) ^ (log2Floor a - 52)

/-- A positive rational rounded to a multiple of its step. -/
def roundPos (a : ℚ) : ℚ := (roundHalfEven (a / ulpOf a) : ℚ) * ulpOf a

/-- The double nearest to a rational, ties to even (the rounding of IEEE 754
that JavaScript uses for literals and for `+ - * /`): a result of magnitude
`2 ^ 1024` or more is an infinity. -/
def roundDouble (q : ℚ) : Num :=
  if q = 0 then Num.fin 0
  else if q < 0 then
    (if (2 : ℚ) ^ (1024 : ℕ) ≤ roundPos (-q) then Num.inf true else Num.fin (-(roundPos (-q))))
  else
    (if (2 : ℚ) ^ (1024 : ℕ) ≤ roundPos q then Num.inf false else Num.fin (roundPos q))

/-- Unary minus. -/
def Num.neg : Num → Num
  | Num.fin q => Num.fin (-q)
  | Num.inf negative => Num.inf (!negative)
  | Num.nan => Num.nan

/-- The operator `+` on numbers. -/
def Num.add : Num → Num → Num
  | Num.nan, _ => Num.nan
  | _, Num.nan => Num.nan
  | Num.inf a, Num.inf b => if a = b then Num.inf a else Num.nan
  | Num.inf a, Num.fin _ => Num.inf a
  | Num.fin _, Num.inf b => Num.inf b
  | Num.fin x, Num.fin y => roundDouble (x + y)

/-- The operator `-` on numbers. -/
def Num.sub (a b : Num) : Num := a.add b.neg

/-- The operator `*` on numbers. -/
def Num.mul : Num → Num → Num
  | Num.nan, _ => Num.nan
  | _, Num.nan => Num.nan
  | Num.inf a, Num.inf b => Num.inf (a != b)
  | Num.inf a, Num.fin y => if y = 0 then Num.nan else Num.inf (a != decide (y < 0))
  | Num.fin x, Num.inf b => if x = 0 then Num.nan else Num.inf (decide (x < 0) != b)
  | Num.fin x, Num.fin y => roundDouble (x * y)

/-- The operator `/` on numbers. The program divides only after the test
`b === 0` has failed, so the cases of a zero divisor are never used; they are
given with the zero taken as positive. -/
def Num.div : Num → Num → Num
  | Num.nan, _ => Num.nan
  | _, Num.nan => Num.nan
  | Num.inf _, Num.inf _ => Num.nan
  | Num.inf a, Num.fin y => Num.inf (a != decide (y < 0))
  | Num.fin _, Num.inf _ => Num.fin 0
  | Num.fin x, Num.fin y =>
    if y = 0 then (if x = 0 then Num.nan else Num.inf (decide (x < 0)))
    else roundDouble (x / y)

/-- The part of `parseFloat` after the sign: `Infinity`, or the longest prefix
that is a decimal literal, rounded to a double; `NaN` when there is neither. -/
def parseMagnitude (s : Text) : Num :=
  if "Infinity".data.isPrefixOf s then Num.inf false
  else
    match parseUnsigned s with
    | some v => roundDouble v
    | none => Num.nan

/-- The global `parseFloat` on a string: leading white space is skipped, an
optional sign is read, then `Infinity` or the longest prefix that is a decimal
literal; whatever follows is ignored. -/
def parseFloat (s : Text) : Num :=
  match s.dropWhile isSpace with
  | '-' :: r => (parseMagnitude r).neg
  | '+' :: r => parseMagnitude r
  | r => parseMagnitude r

/-- The test `!isNaN(token)` on a token of the tokenizer, which is a run of
digits and dots or a single operator or parenthesis: `Number(token)` is a
number exactly when the token has a digit, at most one dot and nothing else. -/
def isNumeric (t : Text) : Bool :=
  t.all isNumChar && t.any isDigit && decide (t.count '.' ≤ 1)

/-! ## expressionEvaluator.js -/

def errInvalidChars : Text := "Expression contains invalid characters.".data
def errInvalidChar : Text := "Invalid character in expression.".data
def errMismatched : Text := "Mismatched parentheses.".data
def errInvalidToken : Text := "Invalid token.".data
def errInvalidExpr : Text := "Invalid expression.".data
def errDivZero : Text := "Division by zero.".data
def errUnknownOp : Text := "Unknown operator.".data
def errInvalidRPNToken : Text := "Invalid token in RPN.".data

/-- The local `pushNumber` of `tokenize`. -/
def pushNumber (numberBuffer : Text) (tokens : List Text) : List Text :=
  if numberBuffer.length > 0 then tokens ++ [numberBuffer] else tokens

/-- The `for` loop of `tokenize` with its two accumulators, and the final
`pushNumber`. -/
def tokenizeLoop : Text → Text → List Text → Except Text (List Text)
  | [], numberBuffer, tokens => .ok (pushNumber numberBuffer tokens)
  | ch :: rest, numberBuffer, tokens =>
    if isNumChar ch then tokenizeLoop rest (numberBuffer ++ [ch]) tokens
    else if isOpOrParen ch then tokenizeLoop rest [] (pushNumber numberBuffer tokens ++ [[ch]])
    else .error errInvalidChar

def tokenize (expr : Text) : Except Text (List Text) := tokenizeLoop expr [] []

/-- The table `precedence`; `none` when `token in precedence` is false. -/
def precedence (token : Text) : Option Nat :=
  if token = ['+'] then some 1
  else if token = ['-'] then some 1
  else if token = ['*'] then some 2
  else if token = ['/'] then some 2
  else none

/-- The inner `while` of the operator case of `toRPN`: pop operators of
precedence at least `p` from the stack `ops` (top first) to the output. -/
def popWhile (p : Nat) : List Text → List Text → List Text × List Text
  | output, [] => (output, [])
  | output, top :: ops =>
    match precedence top with
    | some q => if q ≥ p then popWhile p (output ++ [top]) ops else (output, top :: ops)
    | none => (output, top :: ops)

/-- The `while` of the `")"` case of `toRPN`: pop to the output until the top
is `"("` or the stack is empty. -/
def popToParen : List Text → List Text → List Text × List Text
  | output, [] => (output, [])
  | output, top :: ops =>
    if top ≠ ['('] then popToParen (output ++ [top]) ops else (output, top :: ops)

/-- One iteration of the `forEach` of `toRPN` on the pair (output, ops). -/
def rpnStep (st : List Text × List Text) (token : Text) : Except Text (List Text × List Text) :=
  if isNumeric token then .ok (st.1 ++ [token], st.2)
  else
    match precedence token with
    | some p => .ok ((popWhile p st.1 st.2).1, token :: (popWhile p st.1 st.2).2)
    | none =>
      if token = ['('] then .ok (st.1, token :: st.2)
      else if token = [')'] then
        match (popToParen st.1 st.2).2 with
        | [] => .error errMismatched
        | _ :: ops => .ok ((popToParen st.1 st.2).1, ops)
      else .error errInvalidToken

/-- The final `while` of `toRPN`. -/
def drainOps : List Text → List Text → Except Text (List Text)
  | output, [] => .ok output
  | output, op :: ops =>
    if op = ['('] || op = [')'] then .error errMismatched else drainOps (output ++ [op]) ops

def toRPN (tokens : List Text) : Except Text (List Text) :=
  match tokens.foldlM rpnStep ([], []) with
  | .error e => .error e
  | .ok st => drainOps st.1 st.2

/-- One iteration of the `forEach` of `evalRPN` on the stack (top first). -/
def evalStep (stack : List Num) (token : Text) : Except Text (List Num) :=
  if isNumeric token then .ok (parseFloat token :: stack)
  else if (precedence token).isSome then
    match stack with
    | b :: a :: rest =>
      if token = ['+'] then .ok (a.add b :: rest)
      else if token = ['-'] then .ok (a.sub b :: rest)
      else if token = ['*'] then .ok (a.mul b :: rest)
      else if token = ['/'] then
        (if b = Num.fin 0 then .error errDivZero else .ok (a.div b :: rest))
      else .error errUnknownOp
    | _ => .error errInvalidExpr
  else .error errInvalidRPNToken

def evalRPN (tokens : List Text) : Except Text Num :=
  match tokens.foldlM evalStep [] with
  | .error e => .error e
  | .ok [v] => .ok v
  | .ok _ => .error errInvalidExpr

def evaluateExpression (expr : Text) : Except Text Num :=
  let sanitized := expr.filter (fun c => !isSpace c)
  if sanitized.any (fun c => !isAllowed c) then .error errInvalidChars
  else
    match tokenize sanitized with
    | .error e => .error e
    | .ok tokens =>
      match toRPN tokens with
      | .error e => .error e
      | .ok rpn => evalRPN rpn

/-! ## Number to string -/

/-- Decimal digits of a natural number, most significant first. -/
def natDigits (n : Nat) : Text := Nat.toDigits 10 n

/-- The least `m` from the given one on with `1 ≤ q * 10 ^ m`, searched for at
most `fuel` steps. -/
def fracShift : Nat → ℚ → Nat → Nat
  | 0, _, m => m
  | fuel + 1, q, m => if 1 ≤ q * (10 : ℚ) ^ m then m else fracShift fuel q (m + 1)

/-- The decimal exponent `n` of a positive number: `10 ^ (n - 1) ≤ q < 10 ^ n`. -/
def decExponent (q : ℚ) : ℤ :=
  if 1 ≤ q then ((natDigits (q.num.toNat / q.den)).length : ℤ)
  else 1 - (fracShift q.den q 1 : ℤ)

/-- The significant digits of a positive number of decimal exponent `n` that
has at most seventeen of them, without the trailing zeros. -/
def sigDigits (q : ℚ) (n : ℤ) : Text :=
  ((natDigits (floorNat (q * (10 : ℚ) ^ (17 - n)))).reverse.dropWhile
    (fun c => c == '0')).reverse

/-- The decimal of `k` significant digits that reads back as the positive
double `x` of decimal exponent `n`, if there is one: of the two decimals of
`k` digits around `x` the one that rounds to `x`, the closer when both do, the
one with the even last digit when they are as close. -/
def roundTrip (x : ℚ) (n : ℤ) (k : Nat) : Option ℚ :=
  let scale := (10 : ℚ) ^ (n - (k : ℤ))
  let lo := (floorNat (x / scale) : ℚ) * scale
  let hi := ((floorNat (x / scale) + 1 : ℕ) : ℚ) * scale
  if roundDouble lo = Num.fin x then
    if roundDouble hi = Num.fin x then
      (if x - lo < hi - x then some lo
       else if hi - x < x - lo then some hi
       else if floorNat (x / scale) % 2 = 0 then some lo else some hi)
    else some lo
  else if roundDouble hi = Num.fin x then some hi
  else none

/-- The decimal with the fewest significant digits that reads back as the
positive double `x`, searched from `k` digits up; seventeen always suffice. -/
def shortestDecimal (x : ℚ) (n : ℤ) : Nat → Nat → ℚ
  | 0, _ => x
  | fuel + 1, k =>
    match roundTrip x n k with
    | some w => w
    | none => shortestDecimal x n fuel (k + 1)

/-- The layout of `Number.prototype.toString` for significant digits `ds` and
decimal exponent `n`. -/
def layoutDigits (ds : Text) (n : ℤ) : Text :=
  let k : ℤ := ds.length
  if k ≤ n ∧ n ≤ 21 then ds ++ List.replicate (n - k).toNat '0'
  else if 0 < n ∧ n ≤ 21 then ds.take n.toNat ++ '.' :: ds.drop n.toNat
  else if -6 < n ∧ n ≤ 0 then '0' :: '.' :: (List.replicate (-n).toNat '0' ++ ds)
  else
    let e := n - 1
    let tail := 'e' :: (if e < 0 then '-' else '+') :: natDigits e.natAbs
    match ds with
    | [d] => d :: tail
    | d :: more => d :: '.' :: (more ++ tail)
    | [] => tail

/-- The string form of a positive double: the layout of its shortest decimal. -/
def posToString (x : ℚ) : Text :=
  layoutDigits
    (sigDigits (shortestDecimal x (decExponent x) 17 1)
      (decExponent (shortestDecimal x (decExponent x) 17 1)))
    (decExponent (shortestDecimal x (decExponent x) 17 1))

/-- The method `toString` of a number. -/
def numToString : Num → Text
  | Num.nan => "NaN".data
  | Num.inf false => "Infinity".data
  | Num.inf true => '-' :: "Infinity".data
  | Num.fin q =>
    if q = 0 then ['0']
    else if q < 0 then '-' :: posToString (-q)
    else posToString q

/-! ## String helpers -/

/-- The method `trim` of a string. -/
def trim (s : Text) : Text := ((s.dropWhile isSpace).reverse.dropWhile isSpace).reverse

/-- The test of `^[A-Z][A-Z0-9_]*$` on a string. -/
def isIdentifier : Text → Bool
  | [] => false
  | c :: cs => isUpper c && cs.all isIdentChar

/-- A stretch of a text as the pattern `\b[A-Z][A-Z0-9_]*\b` with the flag `g`
cuts it: a match of the pattern, or text between matches. -/
inductive Piece where
  | ident (name : Text)
  | other (text : Text)
deriving DecidableEq, Repr

/-- Close the pending run of word characters: a match starts and ends at a word
boundary, so it is a maximal run of word characters, and the run matches when
all of it is `[A-Z][A-Z0-9_]*`. -/
def flushWord (buf : Text) (pieces : List Piece) : List Piece :=
  if buf = [] then pieces
  else if isIdentifier buf then pieces ++ [Piece.ident buf]
  else pieces ++ [Piece.other buf]

/-- Scan a text for the matches of `\b[A-Z][A-Z0-9_]*\b`, left to right. -/
def piecesLoop : Text → Text → List Piece → List Piece
  | [], buf, pieces => flushWord buf pieces
  | c :: cs, buf, pieces =>
    if isWordChar c then piecesLoop cs (buf ++ [c]) pieces
    else piecesLoop cs [] (flushWord buf pieces ++ [Piece.other [c]])

def pieces (s : Text) : List Piece := piecesLoop s [] []

/-- The matches among the pieces, in order. -/
def pieceIdents : List Piece → List Text
  | [] => []
  | Piece.ident n :: rest => n :: pieceIdents rest
  | Piece.other _ :: rest => pieceIdents rest

/-- The matches of `\b[A-Z][A-Z0-9_]*\b` in a text, in order. -/
def identsOf (s : Text) : List Text := pieceIdents (pieces s)

/-! ## variableResolver.js -/

inductive VarType where
  | CONSTANT
  | DYNAMIC
deriving DecidableEq, Repr

structure Variable where
  name : Text
  type : VarType
  expression : Text
deriving DecidableEq, Repr

/-- Result of a call that may throw; `diverge` is the model running out of
fuel, which no JavaScript outcome corresponds to. -/
inductive Res (α : Type) where
  | ok (v : α)
  | thrown (msg : Text)
  | diverge
deriving DecidableEq, Repr

/-- The mutable state the closure `resolve` works on: the object `values` and
the set `resolving`. -/
structure RState where
  values : List (Text × Num)
  resolving : List Text
deriving DecidableEq

/-- Reading `obj[name]` in an object built by assignments, the last
assignment first in the list: `none` is `undefined`. -/
def getKey {β : Type} : List (Text × β) → Text → Option β
  | [], _ => none
  | (k, v) :: rest, name => if k = name then some v else getKey rest name

/-- Reading `map[name]`, where `map` was filled by `map[v.name] = v` over the
variables in order: the last variable of that name. -/
def mapGet : List Variable → Text → Option Variable
  | [], _ => none
  | v :: vs, name =>
    match mapGet vs name with
    | some w => some w
    | none => if v.name = name then some v else none

/-- The result of `Object.keys(map)`: the names in order of first insertion. -/
def mapKeys : List Variable → List Text
  | [] => []
  | v :: vs => v.name :: (mapKeys vs).filter (fun k => k ≠ v.name)

def errNotDefined (name : Text) : Text :=
  "Variable \"".data ++ name ++ "\" is not defined.".data

def errCircular (name : Text) : Text :=
  "Circular dependency detected at \"".data ++ name ++ "\".".data

def errInvalidConstant (name : Text) : Text :=
  "Invalid constant value for \"".data ++ name ++ "\". Expected numeric.".data

def errUnknownVariable (token name : Text) : Text :=
  "Unknown variable \"".data ++ token ++ "\" in expression of \"".data ++ name ++ "\".".data

/-- The method `replace` with the pattern `\b[A-Z][A-Z0-9_]*\b`, flag `g`, and
a callback that works on a state and may throw: the callback runs on the
matches from left to right, and the first throw ends the replacement. -/
def replaceIdents {σ : Type} (cb : Text → σ → Res Text × σ) : List Piece → Text → σ → Res Text × σ
  | [], acc, st => (Res.ok acc, st)
  | Piece.other t :: rest, acc, st => replaceIdents cb rest (acc ++ t) st
  | Piece.ident n :: rest, acc, st =>
    match cb n st with
    | (Res.ok t, st1) => replaceIdents cb rest (acc ++ t) st1
    | (Res.thrown e, st1) => (Res.thrown e, st1)
    | (Res.diverge, st1) => (Res.diverge, st1)

/-- The callback of the `replace` in `resolve`, for the variable `name`: an
identifier that is no key of `map` throws, any other is resolved by the call
`recur` and replaced by the string form of its value. -/
def resolveCallback (map : List Variable) (recur : Text → RState → Res Num × RState)
    (name token : Text) (s : RState) : Res Text × RState :=
  if (mapGet map token).isNone then (Res.thrown (errUnknownVariable token name), s)
  else
    match recur token s with
    | (Res.ok val, s1) => (Res.ok (numToString val), s1)
    | (Res.thrown e, s1) => (Res.thrown e, s1)
    | (Res.diverge, s1) => (Res.diverge, s1)

/-- The closure `resolve` of `resolveVariables`, with the depth of the
recursion bounded by the first argument. -/
def resolve (map : List Variable) : Nat → Text → RState → Res Num × RState
  | 0, _, st => (Res.diverge, st)
  | fuel + 1, name, st =>
    match getKey st.values name with
    | some v => (Res.ok v, st)
    | none =>
      match mapGet map name with
      | none => (Res.thrown (errNotDefined name), st)
      | some varDef =>
        if name ∈ st.resolving then (Res.thrown (errCircular name), st)
        else
          let st1 : RState := { values := st.values, resolving := name :: st.resolving }
          let expr := trim varDef.expression
          match varDef.type with
          | VarType.CONSTANT =>
            if parseFloat expr = Num.nan then (Res.thrown (errInvalidConstant name), st1)
            else
              (Res.ok (parseFloat expr),
                { values := (name, parseFloat expr) :: st1.values,
                  resolving := st1.resolving.filter (fun k => k ≠ name) })
          | VarType.DYNAMIC =>
            match replaceIdents (resolveCallback map (resolve map fuel) name)
                (pieces expr) [] st1 with
            | (Res.ok expr1, st2) =>
              match evaluateExpression expr1 with
              | Except.error e => (Res.thrown e, st2)
              | Except.ok result =>
                (Res.ok result,
                  { values := (name, result) :: st2.values,
                    resolving := st2.resolving.filter (fun k => k ≠ name) })
            | (Res.thrown e, st2) => (Res.thrown e, st2)
            | (Res.diverge, st2) => (Res.diverge, st2)

/-- The loop `Object.keys(map).forEach` of `resolveVariables` with its
`try`/`catch`, on the state and the object `errors`. -/
def resolveAll (map : List Variable) (fuel : Nat) :
    List Text → RState → List (Text × Text) → RState × List (Text × Text)
  | [], st, errors => (st, errors)
  | name :: rest, st, errors =>
    match resolve map fuel name st with
    | (Res.ok _, st1) => resolveAll map fuel rest st1 errors
    | (Res.thrown msg, st1) => resolveAll map fuel rest st1 ((name, msg) :: errors)
    | (Res.diverge, st1) => resolveAll map fuel rest st1 errors

/-- What `resolveVariables` returns. -/
structure Resolution where
  values : List (Text × Num)
  errors : List (Text × Text)
deriving DecidableEq

/-- The function `resolveVariables`. A call of `resolve` nests at most as deep
as there are names, which the fuel given here covers. -/
def resolveVariables (vars : List Variable) : Resolution :=
  let r := resolveAll vars ((mapKeys vars).length + 1) (mapKeys vars)
      { values := [], resolving := [] } []
  { values := r.1.values, errors := r.2 }

def initialVariables : List Variable :=
  [ { name := "BASIC".data, type := VarType.CONSTANT, expression := "10000".data },
    { name := "DA".data, type := VarType.CONSTANT, expression := "2000".data },
    { name := "HRA".data, type := VarType.CONSTANT, expression := "3000".data },
    { name := "GROSS".data, type := VarType.DYNAMIC, expression := "BASIC + DA + HRA".data },
    { name := "PF".data, type := VarType.CONSTANT, expression := "1200".data },
    { name := "TAX".data, type := VarType.CONSTANT, expression := "500".data },
    { name := "DEDUCTIONS".data, type := VarType.DYNAMIC, expression := "PF + TAX".data } ]

/-! ## FormulasSection.jsx -/

/-- A match of `\{\{#([^}]+)\}\}` at the very start of the text: the captured
group. The group is the longest run of characters other than `}`; it must be
non-empty and be followed by `}}`. -/
def matchPlaceholder : Text → Option Text
  | '{' :: '{' :: '#' :: rest =>
    if rest.takeWhile (fun c => c ≠ '}') = [] then none
    else
      match rest.dropWhile (fun c => c ≠ '}') with
      | '}' :: '}' :: _ => some (rest.takeWhile (fun c => c ≠ '}'))
      | _ => none
  | _ => none

/-- The `while` loop of `extractContextVars` over the matches of the global
pattern: `skip` counts the characters of the current match still to pass, and
`result` is the set of names in order of insertion. -/
def extractLoop : Text → Nat → List Text → List Text
  | [], _, result => result
  | _ :: cs, skip + 1, result => extractLoop cs skip result
  | c :: cs, 0, result =>
    match matchPlaceholder (c :: cs) with
    | some name => extractLoop cs (name.length + 4) (if name ∈ result then result else result ++ [name])
    | none => extractLoop cs 0 result

def extractContextVars (expression : Text) : List Text := extractLoop expression 0 []

/-- The method `replace` with a global pattern that matches the literal text
`pat` (non-empty) and a replacement text free of `$`: every occurrence found
from left to right, without overlap, is replaced. -/
def replaceAllLoop (pat rep : Text) : Text → Nat → Text
  | [], _ => []
  | _ :: cs, skip + 1 => replaceAllLoop pat rep cs skip
  | c :: cs, 0 =>
    if pat.isPrefixOf (c :: cs) then rep ++ replaceAllLoop pat rep cs (pat.length - 1)
    else c :: replaceAllLoop pat rep cs 0

/-- The text `{{#name}}` that the pattern built in step 1 matches. -/
def placeholder (ctxName : Text) : Text := '{' :: '{' :: '#' :: (ctxName ++ ['}', '}'])

def errCtxRequired (ctxName : Text) : Text :=
  "Context value for \"".data ++ ctxName ++ "\" is required.".data

def errCtxNumeric (ctxName : Text) : Text :=
  "Context value for \"".data ++ ctxName ++ "\" must be numeric.".data

def errUnknownInFormula (token : Text) : Text :=
  "Unknown variable \"".data ++ token ++ "\" in formula.".data

def errVariableHasError (token msg : Text) : Text :=
  "Variable \"".data ++ token ++ "\" has error: ".data ++ msg

/-- The message of the `TypeError` thrown when `.trim()` is called on a value
that has no such method. Its wording is the engine's; this is V8's for the
source text. -/
def errTrimNotFunction : Text :=
  "execState.contextValues[ctxName].trim is not a function".data

/-- Reading `execState.contextValues[ctxName]`, where `contextValues` lists what
the user typed (`handleContextChange` makes each an own property). For a name
nothing was typed for, the value is the empty string that `openExecuteModal`
assigned, except for the name `__proto__`: there the assignment
`ctxValues[v] = ""` is the prototype setter given a string, which does nothing,
and the read gives `Object.prototype`, which is no string (`none`). -/
def contextValue (contextValues : List (Text × Text)) (ctxName : Text) : Option Text :=
  match getKey contextValues ctxName with
  | some v => some v
  | none => if ctxName = "__proto__".data then none else some []

/-- Step 1 of `performExecution`: the `forEach` over the context names. -/
def substituteContext (contextValues : List (Text × Text)) : List Text → Text → Except Text Text
  | [], expr => .ok expr
  | ctxName :: rest, expr =>
    match contextValue contextValues ctxName with
    | none => .error errTrimNotFunction
    | some v =>
      if trim v = [] then .error (errCtxRequired ctxName)
      else if !((trim v).all isNumChar) then .error (errCtxNumeric ctxName)
      else
        substituteContext contextValues rest
          (replaceAllLoop (placeholder ctxName) (trim v) expr 0)

/-- The method `replace` with the pattern `\b[A-Z][A-Z0-9_]*\b`, flag `g`, and
a callback that may throw and has no state. -/
def replaceIdentsPure (cb : Text → Except Text Text) : List Piece → Text → Except Text Text
  | [], acc => .ok acc
  | Piece.other t :: rest, acc => replaceIdentsPure cb rest (acc ++ t)
  | Piece.ident n :: rest, acc =>
    match cb n with
    | .ok t => replaceIdentsPure cb rest (acc ++ t)
    | .error e => .error e

/-- The callback of step 2 of `performExecution`. A message is truthy when it
is not the empty string. -/
def variableCallback (resolvedValues : List (Text × Num)) (variableErrors : List (Text × Text))
    (token : Text) : Except Text Text :=
  match getKey resolvedValues token with
  | none => .error (errUnknownInFormula token)
  | some val =>
    match getKey variableErrors token with
    | some msg => if msg ≠ [] then .error (errVariableHasError token msg) else .ok (numToString val)
    | none => .ok (numToString val)

/-- The body of the `try` of `performExecution` for a formula with the given
expression: the result, or the message that ends up in `execError`. The
context names are those `openExecuteModal` extracted from the expression. -/
def performExecution (expression : Text) (contextValues : List (Text × Text))
    (resolvedValues : List (Text × Num)) (variableErrors : List (Text × Text)) : Except Text Num :=
  match substituteContext contextValues (extractContextVars expression) expression with
  | .error e => .error e
  | .ok expr1 =>
    match replaceIdentsPure (variableCallback resolvedValues variableErrors) (pieces expr1) [] with
    | .error e => .error e
    | .ok expr2 => evaluateExpression expr2

/-! ## Infix expressions, for the statements about the evaluator -/

inductive BinOp where
  | add
  | sub
  | mul
  | div
deriving DecidableEq, Repr

/-- Syntax tree of an infix expression: a literal with its text, a binary
operation, or an expression in parentheses. -/
inductive Expr where
  | lit (t : Text)
  | bin (op : BinOp) (l r : Expr)
  | paren (e : Expr)
deriving DecidableEq, Repr

def BinOp.char : BinOp → Char
  | .add => '+'
  | .sub => '-'
  | .mul => '*'
  | .div => '/'

/-- Binding strength of an operator: `*` and `/` bind tighter. -/
def BinOp.prec : BinOp → Nat
  | .add => 1
  | .sub => 1
  | .mul => 2
  | .div => 2

/-- Binding strength of the top of a tree; literals and parenthesised
expressions are atoms. -/
def Expr.level : Expr → Nat
  | .lit _ => 3
  | .bin op _ _ => op.prec
  | .paren _ => 3

/-- The text of an expression, without white space. -/
def Expr.render : Expr → Text
  | .lit t => t
  | .bin op l r => l.render ++ op.char :: r.render
  | .paren e => '(' :: (e.render ++ [')'])

/-- The tree is the one the text stands for: literals are non-negative decimal
literals, the left operand of an operator binds at least as tightly as the
operator (equal precedence groups to the left) and the right operand binds
strictly tighter. -/
def Expr.WellFormed : Expr → Prop
  | .lit t => isNumeric t = true
  | .bin op l r => l.WellFormed ∧ r.WellFormed ∧ op.prec ≤ l.level ∧ op.prec < r.level
  | .paren e => e.WellFormed

/-- A character other than the dot. -/
def notDot (c : Char) : Bool := c != '.'

/-- Decimal value of a literal: the digits before the dot and those after. -/
def litValue (t : Text) : ℚ :=
  decimalVal (t.takeWhile notDot) ((t.dropWhile notDot).drop 1)

/-- Value of the tree in exact arithmetic (a division by zero is given the
value Lean gives it). -/
def Expr.exactValue : Expr → ℚ
  | .lit t => litValue t
  | .bin .add l r => l.exactValue + r.exactValue
  | .bin .sub l r => l.exactValue - r.exactValue
  | .bin .mul l r => l.exactValue * r.exactValue
  | .bin .div l r => l.exactValue / r.exactValue
  | .paren e => e.exactValue

/-- Value of the tree in the arithmetic of doubles: every literal is rounded to
a double when it is read, and so is the result of every operation. -/
def Expr.value : Expr → Num
  | .lit t => roundDouble (litValue t)
  | .bin .add l r => l.value.add r.value
  | .bin .sub l r => l.value.sub r.value
  | .bin .mul l r => l.value.mul r.value
  | .bin .div l r => l.value.div r.value
  | .paren e => e.value

/-- Nothing in the tree is rounded: every literal is a double, and so is the
exact result of every operation. -/
def Expr.Exact : Expr → Prop
  | .lit t => roundDouble (litValue t) = Num.fin (litValue t)
  | .bin op l r =>
    l.Exact ∧ r.Exact ∧
      roundDouble (Expr.bin op l r).exactValue = Num.fin (Expr.bin op l r).exactValue
  | .paren e => e.Exact

/-- No right operand of a division in the tree has the value zero, in the
arithmetic of doubles. -/
def Expr.DivisorsNonzero : Expr → Prop
  | .lit _ => True
  | .bin .div l r => l.DivisorsNonzero ∧ r.DivisorsNonzero ∧ r.value ≠ Num.fin 0
  | .bin _ l r => l.DivisorsNonzero ∧ r.DivisorsNonzero
  | .paren e => e.DivisorsNonzero

/-- Some division in the tree has a right operand that evaluates, in the
arithmetic of doubles, and to zero. -/
def Expr.HasZeroDivisor : Expr → Prop
  | .lit _ => False
  | .bin op l r =>
    l.HasZeroDivisor ∨ r.HasZeroDivisor ∨
      (op = BinOp.div ∧ r.DivisorsNonzero ∧ r.value = Num.fin 0)
  | .paren e => e.HasZeroDivisor

instance Expr.decExact : (e : Expr) → Decidable e.Exact
  | .lit t => inferInstanceAs (Decidable (roundDouble (litValue t) = Num.fin (litValue t)))
  | .bin op l r =>
    have := Expr.decExact l
    have := Expr.decExact r
    inferInstanceAs (Decidable (l.Exact ∧ r.Exact ∧
      roundDouble (Expr.bin op l r).exactValue = Num.fin (Expr.bin op l r).exactValue))
  | .paren e => Expr.decExact e

instance Expr.decWellFormed : (e : Expr) → Decidable e.WellFormed
  | .lit t => inferInstanceAs (Decidable (isNumeric t = true))
  | .bin op l r =>
    have := Expr.decWellFormed l
    have := Expr.decWellFormed r
    inferInstanceAs (Decidable (l.WellFormed ∧ r.WellFormed ∧ op.prec ≤ l.level ∧ op.prec < r.level))
  | .paren e => Expr.decWellFormed e

instance Expr.decDivisorsNonzero : (e : Expr) → Decidable e.DivisorsNonzero
  | .lit _ => inferInstanceAs (Decidable True)
  | .bin .div l r =>
    have := Expr.decDivisorsNonzero l
    have := Expr.decDivisorsNonzero r
    inferInstanceAs (Decidable (l.DivisorsNonzero ∧ r.DivisorsNonzero ∧ r.value ≠ Num.fin 0))
  | .bin .add l r =>
    have := Expr.decDivisorsNonzero l
    have := Expr.decDivisorsNonzero r
    inferInstanceAs (Decidable (l.DivisorsNonzero ∧ r.DivisorsNonzero))
  | .bin .sub l r =>
    have := Expr.decDivisorsNonzero l
    have := Expr.decDivisorsNonzero r
    inferInstanceAs (Decidable (l.DivisorsNonzero ∧ r.DivisorsNonzero))
  | .bin .mul l r =>
    have := Expr.decDivisorsNonzero l
    have := Expr.decDivisorsNonzero r
    inferInstanceAs (Decidable (l.DivisorsNonzero ∧ r.DivisorsNonzero))
  | .paren e => Expr.decDivisorsNonzero e

/-- The tokens of the text of a tree. -/
def Expr.tokens : Expr → List Text
  | .lit t => [t]
  | .bin op l r => l.tokens ++ [op.char] :: r.tokens
  | .paren e => ['('] :: (e.tokens ++ [[')']])

/-- The tree in postfix order. -/
def Expr.rpn : Expr → List Text
  | .lit t => [t]
  | .bin op l r => l.rpn ++ r.rpn ++ [[op.char]]
  | .paren e => e.rpn

/-- The parentheses of a text are balanced: no prefix has more `)` than `(`,
and the totals agree. -/
def Balanced (s : Text) : Prop :=
  (∀ k, (s.take k).count ')' ≤ (s.take k).count '(') ∧ s.count '(' = s.count ')'

/-- Scan of the parentheses of a text from depth `d`: the final depth, or
`none` when a `)` comes at depth zero. -/
def charDepth : Text → Nat → Option Nat
  | [], d => some d
  | c :: cs, d =>
    if c = '(' then charDepth cs (d + 1)
    else if c = ')' then (if d = 0 then none else charDepth cs (d - 1))
    else charDepth cs d

/-- The same scan on a list of tokens. -/
def tokenDepth : List Text → Nat → Option Nat
  | [], d => some d
  | t :: ts, d =>
    if t = ['('] then tokenDepth ts (d + 1)
    else if t = [')'] then (if d = 0 then none else tokenDepth ts (d - 1))
    else tokenDepth ts d

/-- The tokens that `tokenizeLoop` adds when started with the given buffer. -/
def tokensOf : Text → Text → List Text
  | [], buf => pushNumber buf []
  | c :: cs, buf =>
    if isNumChar c then tokensOf cs (buf ++ [c])
    else pushNumber buf [] ++ [c] :: tokensOf cs []

/-! ## Resolution by the definitions alone, for the statements about the resolver -/

/-- The pieces of an expression put together again, every identifier replaced
by the string form of the value `val` gives it; `none` when some identifier has
no value. -/
def substValues (val : Text → Option Num) : List Piece → Text → Option Text
  | [], acc => some acc
  | Piece.other t :: rest, acc => substValues val rest (acc ++ t)
  | Piece.ident n :: rest, acc =>
    match val n with
    | some v => substValues val rest (acc ++ numToString v)
    | none => none

/-- The value the definitions give a name when references are followed at most
`h` deep, with no state: a Constant is its literal, a Dynamic variable is the
evaluation of its expression with the values of the names in it. -/
def valueOf (c : List Variable) : Nat → Text → Option Num
  | 0, _ => none
  | h + 1, name =>
    match mapGet c name with
    | none => none
    | some varDef =>
      match varDef.type with
      | VarType.CONSTANT =>
        if parseFloat (trim varDef.expression) = Num.nan then none
        else some (parseFloat (trim varDef.expression))
      | VarType.DYNAMIC =>
        match substValues (valueOf c h) (pieces (trim varDef.expression)) [] with
        | none => none
        | some text =>
          match evaluateExpression text with
          | Except.ok r => some r
          | Except.error _ => none

/-- The name `a` is a Dynamic variable whose expression mentions `t`. -/
def Refs (c : List Variable) (a t : Text) : Prop :=
  ∃ varDef, mapGet c a = some varDef ∧ varDef.type = VarType.DYNAMIC ∧
    t ∈ identsOf (trim varDef.expression)

/-- The name `b` is `a` or is referenced by `a` through any number of steps. -/
def Reaches (c : List Variable) (a b : Text) : Prop := Relation.ReflTransGen (Refs c) a b

/-- A reference cycle can be reached from `a`: `a` reaches a name that
references itself through one step or more. -/
def ReachesCycle (c : List Variable) (a : Text) : Prop :=
  ∃ b, Reaches c a b ∧ Relation.TransGen (Refs c) b b

/-- The messages of the circular-dependency error. -/
def IsCircularMsg (m : Text) : Prop := ∃ n, m = errCircular n

/-! ## Substitution of placeholders, for the statements about formula execution -/

/-- The expression with every match of the placeholder pattern, found from left
to right as `extractContextVars` finds them, replaced in one pass by the trimmed
binding of its name. -/
def fillPlaceholders (contextValues : List (Text × Text)) : Text → Nat → Text
  | [], _ => []
  | _ :: cs, skip + 1 => fillPlaceholders contextValues cs skip
  | c :: cs, 0 =>
    match matchPlaceholder (c :: cs) with
    | some name =>
      trim ((getKey contextValues name).getD []) ++
        fillPlaceholders contextValues cs (name.length + 4)
    | none => c :: fillPlaceholders contextValues cs 0

/-! ## Auxiliary notions of the proofs -/

/-- The name has no value by the definitions. -/
def NoValue (c : List Variable) (k : Text) : Prop := ∀ h, valueOf c h k = none

/-- Every entry of `values` is the value the definitions give. -/
def Sound (c : List Variable) (vals : List (Text × Num)) : Prop :=
  ∀ k v, getKey vals k = some v → ∃ h, valueOf c h k = some v

/-- No name in the set `resolving` has a value. -/
def Stuck (c : List Variable) (st : RState) : Prop := ∀ k ∈ st.resolving, NoValue c k

/-- The number of keys of `map` that are not in the set `resolving`. -/
def pending (c : List Variable) (resolving : List Text) : Nat :=
  (mapKeys c).countP (fun k => decide (k ∉ resolving))

/-- What can be behind a message that `resolve` throws for a key of `map`. -/
inductive Cause (c : List Variable) : Text → Prop where
  | circular (name : Text) : Cause c (errCircular name)
  | invalidConstant (name : Text) (varDef : Variable) :
      mapGet c name = some varDef → varDef.type = VarType.CONSTANT →
      parseFloat (trim varDef.expression) = Num.nan → Cause c (errInvalidConstant name)
  | unknownVariable (name token : Text) (varDef : Variable) :
      mapGet c name = some varDef → varDef.type = VarType.DYNAMIC →
      token ∈ identsOf (trim varDef.expression) → mapGet c token = none →
      Cause c (errUnknownVariable token name)
  | evaluator (name : Text) (varDef : Variable) (h : Nat) (text e : Text) :
      mapGet c name = some varDef → varDef.type = VarType.DYNAMIC →
      substValues (valueOf c h) (pieces (trim varDef.expression)) [] = some text →
      evaluateExpression text = Except.error e → Cause c e


/-- The text that follows a complete expression: nothing, or something that
does not continue a number. -/
def Boundary (rest : Text) : Prop := ∀ c cs, rest = c :: cs → isNumChar c = false

/-- The top of the operator stack, when it is an operator, binds less tightly
than `L`. -/
def TopBelow (ops : List Text) (L : Nat) : Prop :=
  ∀ top rest q, ops = top :: rest → precedence top = some q → q < L

/-- What a token of the tokenizer looks like: a run of digits and dots, or one
operator or parenthesis. -/
def TokShape (t : Text) : Prop :=
  (t ≠ [] ∧ t.all isNumChar = true) ∨ ∃ c, isOpOrParen c = true ∧ t = [c]

/-- A token the parser accepts. -/
def TokValid (t : Text) : Prop :=
  isNumeric t = true ∨ (precedence t).isSome = true ∨ t = ['('] ∨ t = [')']

/-- Every entry of `errors` is for a name without a value and has a cause. -/
def ErrSound (c : List Variable) (errs : List (Text × Text)) : Prop :=
  ∀ k m, getKey errs k = some m → NoValue c k ∧ Cause c m

/-- The list of names holds, with each Dynamic variable in it, the names its
expression mentions. -/
def closedUnder (c : List Variable) (names : List Text) : Bool :=
  names.all (fun a =>
    match mapGet c a with
    | some varDef =>
      varDef.type != VarType.DYNAMIC ||
        (identsOf (trim varDef.expression)).all (fun t => decide (t ∈ names))
    | none => true)

/-- Every identifier in the expression of a Dynamic variable of the collection
is a key of `map`. -/
def refsDefined (c : List Variable) : Bool :=
  c.all (fun varDef =>
    varDef.type != VarType.DYNAMIC ||
      (identsOf (trim varDef.expression)).all (fun t => (mapGet c t).isSome))

/-! ## Theorems: the evaluator -/

theorem isNumChar_of_isDigit {c : Char} (h : isDigit c = true) : isNumChar c = true := by
  simp [isNumChar, h]

theorem not_numChar_opChar (op : BinOp) : isNumChar op.char = false := by
  cases op <;> decide

theorem isOpOrParen_opChar (op : BinOp) : isOpOrParen op.char = true := by
  cases op <;> decide

theorem precedence_opTok (op : BinOp) : precedence [op.char] = some op.prec := by
  cases op <;> decide

theorem isNumeric_opTok (op : BinOp) : isNumeric [op.char] = false := by
  cases op <;> decide

theorem isNumeric_ne_nil {t : Text} (h : isNumeric t = true) : t ≠ [] := by
  intro h0
  subst h0
  simp [isNumeric] at h

theorem isNumeric_all {t : Text} (h : isNumeric t = true) : t.all isNumChar = true := by
  simp only [isNumeric, Bool.and_eq_true] at h
  exact h.1.1

/-- Reading a run of digits and dots only extends the number buffer. -/
theorem tokenizeLoop_numChars (t rest buf : Text) (toks : List Text)
    (h : t.all isNumChar = true) :
    tokenizeLoop (t ++ rest) buf toks = tokenizeLoop rest (buf ++ t) toks := by
  induction t generalizing buf with
  | nil => simp
  | cons c cs ih =>
    simp only [List.all_cons, Bool.and_eq_true] at h
    show tokenizeLoop (c :: (cs ++ rest)) buf toks = _
    rw [tokenizeLoop]
    simp only [h.1, if_true]
    rw [ih _ h.2]
    simp

theorem tokenizeLoop_flush (t rest : Text) (toks : List Text) (ht : t ≠ [])
    (hr : Boundary rest) :
    tokenizeLoop rest t toks = tokenizeLoop rest [] (toks ++ [t]) := by
  have hlen : t.length > 0 := List.length_pos.mpr ht
  cases rest with
  | nil => simp [tokenizeLoop, pushNumber, hlen]
  | cons c cs =>
    have hc := hr c cs rfl
    simp [tokenizeLoop, pushNumber, hlen, hc]

theorem tokenizeLoop_render (e : Expr) (he : e.WellFormed) :
    ∀ (rest : Text) (toks : List Text), Boundary rest →
      tokenizeLoop (e.render ++ rest) [] toks = tokenizeLoop rest [] (toks ++ e.tokens) := by
  induction e with
  | lit t =>
    intro rest toks hr
    have hnum : isNumeric t = true := he
    rw [Expr.render, tokenizeLoop_numChars t rest [] toks (isNumeric_all hnum)]
    simpa [Expr.tokens] using tokenizeLoop_flush t rest toks (isNumeric_ne_nil hnum) hr
  | bin op l r ihl ihr =>
    intro rest toks hr
    obtain ⟨hl, hrw, -, -⟩ := he
    have hb : Boundary (op.char :: (r.render ++ rest)) := by
      intro c cs h
      cases h
      exact not_numChar_opChar op
    have h1 := ihl hl (op.char :: (r.render ++ rest)) toks hb
    simp only [Expr.render, List.append_assoc, List.cons_append] at h1 ⊢
    rw [h1]
    simp only [tokenizeLoop, not_numChar_opChar, isOpOrParen_opChar, if_true, pushNumber,
      List.length_nil, gt_iff_lt, lt_self_iff_false, if_false, Bool.false_eq_true]
    rw [ihr hrw rest _ hr]
    simp [Expr.tokens]
  | paren e ih =>
    intro rest toks hr
    have hb : Boundary (')' :: rest) := by
      intro c cs h
      cases h
      decide
    have h1 := ih he (')' :: rest) (toks ++ [['(']]) hb
    simp only [Expr.render, List.append_assoc, List.cons_append, List.singleton_append,
      List.nil_append]
    have h0 : isNumChar '(' = false := by decide
    have h2 : isOpOrParen '(' = true := by decide
    have h3 : isNumChar ')' = false := by decide
    have h4 : isOpOrParen ')' = true := by decide
    simp only [tokenizeLoop, h0, h2, if_true, if_false, pushNumber, List.length_nil, gt_iff_lt,
      lt_self_iff_false, Bool.false_eq_true]
    rw [h1]
    simp [tokenizeLoop, h3, h4, pushNumber, Expr.tokens]

theorem tokenize_render (e : Expr) (he : e.WellFormed) : tokenize e.render = .ok e.tokens := by
  have h := tokenizeLoop_render e he [] [] (by intro c cs h; cases h)
  simpa [tokenize, tokenizeLoop, pushNumber] using h

theorem ok_bind {ε α β : Type} (x : α) (f : α → Except ε β) : (Except.ok x >>= f) = f x := rfl

theorem pure_eq_ok {ε α : Type} (x : α) : (Except.pure x : Except ε α) = Except.ok x := rfl

theorem error_bind {ε α β : Type} (e : ε) (f : α → Except ε β) :
    ((Except.error e : Except ε α) >>= f) = Except.error e := rfl

theorem TopBelow.mono {ops : List Text} {L M : Nat} (h : TopBelow ops L) (hLM : L ≤ M) :
    TopBelow ops M := fun top rest q h1 h2 => lt_of_lt_of_le (h top rest q h1 h2) hLM

theorem popWhile_of_topBelow (p : Nat) (out ops : List Text) (h : TopBelow ops p) :
    popWhile p out ops = (out, ops) := by
  cases ops with
  | nil => rfl
  | cons top rest =>
    cases hq : precedence top with
    | none => simp [popWhile, hq]
    | some q =>
      have := h top rest q rfl hq
      simp [popWhile, hq, Nat.not_le.mpr this]

theorem popWhile_push (p q : Nat) (op : Text) (out ops : List Text)
    (hq : precedence op = some q) (hpq : p ≤ q) :
    popWhile p out (op :: ops) = popWhile p (out ++ [op]) ops := by
  simp [popWhile, hq, hpq]

theorem popToParen_of_popWhile (ops : List Text) :
    ∀ (out o1 s : List Text), popWhile 0 out ops = (o1, ['('] :: s) →
      popToParen out ops = (o1, ['('] :: s) := by
  induction ops with
  | nil => intro out o1 s h; simp [popWhile] at h
  | cons top rest ih =>
    intro out o1 s h
    cases hq : precedence top with
    | none =>
      simp only [popWhile, hq, Prod.mk.injEq, List.cons.injEq] at h
      obtain ⟨h1, h2, h3⟩ := h
      subst h1 h2 h3
      simp [popToParen]
    | some q =>
      have hne : top ≠ ['('] := by
        intro h0
        subst h0
        simp [precedence] at hq
      simp only [popWhile, hq, ge_iff_le, Nat.zero_le, if_true] at h
      simp only [popToParen, ne_eq, hne, not_false_eq_true, if_true]
      exact ih _ _ _ h

theorem drainOps_of_popWhile (ops : List Text) :
    ∀ (out o1 : List Text), popWhile 0 out ops = (o1, []) → drainOps out ops = .ok o1 := by
  induction ops with
  | nil => intro out o1 h; simp [popWhile] at h; simp [drainOps, h]
  | cons top rest ih =>
    intro out o1 h
    cases hq : precedence top with
    | none => simp [popWhile, hq] at h
    | some q =>
      have hne : top ≠ ['('] := by
        intro h0
        subst h0
        simp [precedence] at hq
      have hne2 : top ≠ [')'] := by
        intro h0
        subst h0
        simp [precedence] at hq
      simp only [popWhile, hq, ge_iff_le, Nat.zero_le, if_true] at h
      simp only [drainOps, hne, hne2, decide_False, Bool.or_self, Bool.false_eq_true, if_false]
      exact ih _ _ h

/-- The shunting-yard loop on the tokens of a well-formed tree: whatever it
leaves pending on the stack, flushing the operators of precedence at least `p`
gives the same as appending the postfix form to the output. -/
theorem foldlM_rpnStep_tokens (e : Expr) (he : e.WellFormed) :
    ∀ (out ops : List Text) (p : Nat), TopBelow ops e.level → p ≤ e.level →
      ∃ o1 s1, e.tokens.foldlM rpnStep (out, ops) = .ok (o1, s1) ∧
        popWhile p o1 s1 = popWhile p (out ++ e.rpn) ops := by
  induction e with
  | lit t =>
    intro out ops p _ _
    have hnum : isNumeric t = true := he
    exact ⟨out ++ [t], ops, by simp [Expr.tokens, rpnStep, hnum, ok_bind, pure, pure_eq_ok], rfl⟩
  | bin op l r ihl ihr =>
    intro out ops p htop hp
    obtain ⟨hl, hr, hll, hrl⟩ := he
    have hlev : (Expr.bin op l r).level = op.prec := rfl
    rw [hlev] at htop hp
    obtain ⟨o1, s1, h1, h1'⟩ := ihl hl out ops op.prec (htop.mono hll) hll
    rw [popWhile_of_topBelow _ _ _ htop] at h1'
    have htop2 : TopBelow ([op.char] :: ops) r.level := by
      intro top rest q h hq
      cases h
      rw [precedence_opTok] at hq
      cases hq
      exact hrl
    obtain ⟨o2, s2, h2, h2'⟩ := ihr hr (out ++ l.rpn) ([op.char] :: ops) p htop2
      (le_trans hp (le_of_lt hrl))
    refine ⟨o2, s2, ?_, ?_⟩
    · simp only [Expr.tokens, List.foldlM_append, h1, ok_bind, List.foldlM_cons]
      simp only [rpnStep, isNumeric_opTok, precedence_opTok, h1', Bool.false_eq_true, if_false,
        ok_bind]
      exact h2
    · rw [h2', popWhile_push p op.prec _ _ _ (precedence_opTok op) hp]
      simp [Expr.rpn]
  | paren e ih =>
    intro out ops p _ _
    have htop2 : TopBelow (['('] :: ops) e.level := by
      intro top rest q h hq
      cases h
      simp [precedence] at hq
    obtain ⟨o1, s1, h1, h1'⟩ := ih he out (['('] :: ops) 0 htop2 (Nat.zero_le _)
    have h3 : popWhile 0 (out ++ e.rpn) (['('] :: ops) = (out ++ e.rpn, ['('] :: ops) := by
      simp [popWhile, precedence]
    rw [h3] at h1'
    have h4 := popToParen_of_popWhile s1 o1 _ _ h1'
    refine ⟨out ++ e.rpn, ops, ?_, rfl⟩
    have hn1 : isNumeric ['('] = false := by decide
    have hn2 : isNumeric [')'] = false := by decide
    have hp1 : precedence ['('] = none := by decide
    have hp2 : precedence [')'] = none := by decide
    have hne : ([')'] : Text) ≠ ['('] := by decide
    simp only [Expr.tokens, List.foldlM_cons, List.foldlM_append, rpnStep, hn1, hp1,
      Bool.false_eq_true, if_false, if_true, ok_bind, h1, List.foldlM_nil]
    simp [hn2, hp2, hne, h4, pure, pure_eq_ok, ok_bind]

theorem toRPN_tokens (e : Expr) (he : e.WellFormed) : toRPN e.tokens = .ok e.rpn := by
  obtain ⟨o1, s1, h1, h2⟩ := foldlM_rpnStep_tokens e he [] [] 0
    (by intro top rest q h; cases h) (Nat.zero_le _)
  have h3 : popWhile 0 ([] ++ e.rpn) [] = (e.rpn, []) := by simp [popWhile]
  rw [h3] at h2
  simp [toRPN, h1, drainOps_of_popWhile s1 o1 _ h2]

/-! ### Numeric tokens -/

theorem spanDigits_eq (s : Text) : spanDigits s = (s.takeWhile isDigit, s.dropWhile isDigit) := by
  induction s with
  | nil => rfl
  | cons c cs ih =>
    cases hc : isDigit c <;> simp [spanDigits, hc, ih, List.takeWhile, List.dropWhile]

theorem isDigit_dot : isDigit '.' = false := by decide

theorem eq_dot_of_numChar {c : Char} (h : isNumChar c = true) (hd : isDigit c = false) :
    c = '.' := by
  simpa [isNumChar, hd] using h

theorem not_space_of_numChar {c : Char} (h : isNumChar c = true) : isSpace c = false := by
  cases hd : isDigit c with
  | false =>
    have := eq_dot_of_numChar h hd
    subst this
    decide
  | true =>
    simp only [isDigit, Bool.and_eq_true, decide_eq_true_eq] at hd
    simp only [isSpace, Bool.or_eq_false_iff, Bool.and_eq_false_imp, beq_eq_false_iff_ne,
      decide_eq_true_eq, decide_eq_false_iff_not]
    omega

theorem takeWhile_digits_dot (ip rest : Text) (h : ip.all isDigit = true) :
    (ip ++ '.' :: rest).takeWhile isDigit = ip ∧ (ip ++ '.' :: rest).dropWhile isDigit = '.' :: rest := by
  induction ip with
  | nil => simp [List.takeWhile, List.dropWhile, isDigit_dot]
  | cons c cs ih =>
    simp only [List.all_cons, Bool.and_eq_true] at h
    simp [List.takeWhile, List.dropWhile, h.1, ih h.2]

theorem takeWhile_digits_all (ip : Text) (h : ip.all isDigit = true) :
    ip.takeWhile isDigit = ip ∧ ip.dropWhile isDigit = [] := by
  induction ip with
  | nil => simp
  | cons c cs ih =>
    simp only [List.all_cons, Bool.and_eq_true] at h
    simp [List.takeWhile, List.dropWhile, h.1, ih h.2]

theorem notDot_of_isDigit {c : Char} (h : isDigit c = true) : notDot c = true := by
  have : c ≠ '.' := by
    intro h0
    subst h0
    simp [isDigit_dot] at h
  simpa [notDot] using this

theorem notDot_dot : notDot '.' = false := by decide

theorem takeWhile_notDot_dot (ip rest : Text) (h : ip.all isDigit = true) :
    (ip ++ '.' :: rest).takeWhile notDot = ip ∧
      (ip ++ '.' :: rest).dropWhile notDot = '.' :: rest := by
  induction ip with
  | nil => simp [List.takeWhile, List.dropWhile, notDot_dot]
  | cons c cs ih =>
    simp only [List.all_cons, Bool.and_eq_true] at h
    simp [List.takeWhile, List.dropWhile, notDot_of_isDigit h.1, ih h.2]

theorem takeWhile_notDot_all (ip : Text) (h : ip.all isDigit = true) :
    ip.takeWhile notDot = ip ∧ ip.dropWhile notDot = [] := by
  induction ip with
  | nil => simp
  | cons c cs ih =>
    simp only [List.all_cons, Bool.and_eq_true] at h
    rw [List.takeWhile, List.dropWhile]
    simp only [notDot_of_isDigit h.1]
    exact ⟨by rw [(ih h.2).1], (ih h.2).2⟩

/-- A numeric token is a run of digits, or two runs of digits around one dot,
with a digit somewhere. -/
theorem isNumeric_shape {t : Text} (h : isNumeric t = true) :
    (t.all isDigit = true ∧ t ≠ []) ∨
      ∃ ip fp, t = ip ++ '.' :: fp ∧ ip.all isDigit = true ∧ fp.all isDigit = true ∧
        ¬(ip = [] ∧ fp = []) := by
  simp only [isNumeric, Bool.and_eq_true, decide_eq_true_eq] at h
  obtain ⟨⟨hall, hany⟩, hcount⟩ := h
  have hsplit : t.takeWhile isDigit ++ t.dropWhile isDigit = t := List.takeWhile_append_dropWhile _ _
  have hip : (t.takeWhile isDigit).all isDigit = true := by
    simp only [List.all_eq_true]
    intro c hc
    exact List.mem_takeWhile_imp hc
  cases hrest : t.dropWhile isDigit with
  | nil =>
    left
    rw [hrest, List.append_nil] at hsplit
    refine ⟨by rw [← hsplit]; exact hip, ?_⟩
    intro h0
    subst h0
    simp at hany
  | cons c r1 =>
    right
    have hcd : isDigit c = false := by
      have := List.head_dropWhile_not isDigit t (by simp [hrest])
      simpa [hrest] using this
    have hct : c ∈ t := by
      rw [← hsplit, hrest]
      simp
    have hcdot : c = '.' := eq_dot_of_numChar (List.all_eq_true.mp hall c hct) hcd
    subst hcdot
    rw [hrest] at hsplit
    have hcnt : t.count '.' = (t.takeWhile isDigit).count '.' + (1 + r1.count '.') := by
      conv_lhs => rw [← hsplit]
      simp [List.count_append, List.count_cons, Nat.add_comm]
    have hr1 : r1.count '.' = 0 := by omega
    have hfp : r1.all isDigit = true := by
      simp only [List.all_eq_true]
      intro c hc
      have hcn : isNumChar c = true :=
        List.all_eq_true.mp hall c (by rw [← hsplit]; simp [hc])
      cases hd : isDigit c with
      | true => rfl
      | false =>
        have := eq_dot_of_numChar hcn hd
        subst this
        exact absurd hc (List.count_eq_zero.mp hr1)
    refine ⟨t.takeWhile isDigit, r1, hsplit.symm, hip, hfp, ?_⟩
    rintro ⟨h1, h2⟩
    rw [h1, h2] at hsplit
    rw [← hsplit] at hany
    simp [isDigit_dot] at hany

theorem dropWhile_space_numeric {t : Text} (h : t.all isNumChar = true) :
    t.dropWhile isSpace = t := by
  cases t with
  | nil => rfl
  | cons c cs =>
    simp only [List.all_cons, Bool.and_eq_true] at h
    simp [List.dropWhile, not_space_of_numChar h.1]

theorem parseUnsigned_numeric {t : Text} (h : isNumeric t = true) :
    parseUnsigned t = some (litValue t) := by
  rcases isNumeric_shape h with ⟨hd, hne⟩ | ⟨ip, fp, ht, hip, hfp, hnn⟩
  · obtain ⟨h1, h2⟩ := takeWhile_digits_all t hd
    obtain ⟨h3, h4⟩ := takeWhile_notDot_all t hd
    simp [parseUnsigned, spanDigits_eq, h1, h2, h3, h4, litValue, hne, parseExponent]
  · subst ht
    obtain ⟨h1, h2⟩ := takeWhile_digits_dot ip fp hip
    obtain ⟨h3, h4⟩ := takeWhile_notDot_dot ip fp hip
    obtain ⟨h5, h6⟩ := takeWhile_digits_all fp hfp
    have hnn2 : ¬(ip = [] ∧ fp = []) := hnn
    simp only [parseUnsigned, spanDigits_eq, h1, h2, h3, h4, h5, h6, litValue, parseExponent,
      List.drop_succ_cons, List.drop_zero, Option.getD_none, zpow_zero, mul_one]
    simp [hnn2]

theorem not_infinity_of_numChars {t : Text} (h : t.all isNumChar = true) :
    "Infinity".data.isPrefixOf t = false := by
  cases t with
  | nil => rfl
  | cons c cs =>
    simp only [List.all_cons, Bool.and_eq_true] at h
    have hc : c ≠ 'I' := by
      intro h0
      subst h0
      exact absurd h.1 (by decide)
    have hb : ('I' == c) = false := by
      simpa using fun h0 : 'I' = c => hc h0.symm
    show List.isPrefixOf ('I' :: "nfinity".data) (c :: cs) = false
    rw [List.isPrefixOf, hb]
    rfl

/-- On a numeric token `parseFloat` reads the whole token as a decimal and
rounds it to a double. -/
theorem parseFloat_numeric {t : Text} (h : isNumeric t = true) :
    parseFloat t = roundDouble (litValue t) := by
  have hall := isNumeric_all h
  have hhead : ∀ c cs, t = c :: cs → c ≠ '-' ∧ c ≠ '+' := by
    intro c cs ht
    subst ht
    simp only [List.all_cons, Bool.and_eq_true] at hall
    constructor <;> (intro h0; subst h0; exact absurd hall.1 (by decide))
  have hpf : parseFloat t = parseMagnitude t := by
    unfold parseFloat
    rw [dropWhile_space_numeric hall]
    cases t with
    | nil => rfl
    | cons c cs =>
      obtain ⟨h1, h2⟩ := hhead c cs rfl
      split
      · rename_i heq; cases heq; exact absurd rfl h1
      · rename_i heq; cases heq; exact absurd rfl h2
      · rfl
  rw [hpf, parseMagnitude, not_infinity_of_numChars hall, parseUnsigned_numeric h]
  rfl

/-! ### Postfix evaluation -/

theorem evalStep_numeric (stack : List Num) {t : Text} (h : isNumeric t = true) :
    evalStep stack t = .ok (roundDouble (litValue t) :: stack) := by
  simp [evalStep, h, parseFloat_numeric h]

theorem evalStep_op (op : BinOp) (a b : Num) (rest : List Num) :
    evalStep (b :: a :: rest) [op.char] =
      match op with
      | .add => .ok (a.add b :: rest)
      | .sub => .ok (a.sub b :: rest)
      | .mul => .ok (a.mul b :: rest)
      | .div => if b = Num.fin 0 then .error errDivZero else .ok (a.div b :: rest) := by
  cases op <;> simp [evalStep, isNumeric_opTok, precedence_opTok, BinOp.char] <;> rfl

theorem foldlM_evalStep_rpn (e : Expr) (he : e.WellFormed) (hd : e.DivisorsNonzero) :
    ∀ stack : List Num, e.rpn.foldlM evalStep stack = .ok (e.value :: stack) := by
  induction e with
  | lit t =>
    intro stack
    have hnum : isNumeric t = true := he
    simp [Expr.rpn, evalStep_numeric stack hnum, Expr.value, ok_bind, pure, pure_eq_ok]
  | bin op l r ihl ihr =>
    intro stack
    obtain ⟨hl, hr, -, -⟩ := he
    cases op with
    | div =>
      obtain ⟨hdl, hdr, hnz⟩ := hd
      simp [Expr.rpn, List.foldlM_append, ihl hl hdl, ihr hr hdr, ok_bind, evalStep_op,
        hnz, Expr.value, pure, pure_eq_ok]
    | add =>
      obtain ⟨hdl, hdr⟩ := hd
      simp [Expr.rpn, List.foldlM_append, ihl hl hdl, ihr hr hdr, ok_bind, evalStep_op,
        Expr.value, pure, pure_eq_ok]
    | sub =>
      obtain ⟨hdl, hdr⟩ := hd
      simp [Expr.rpn, List.foldlM_append, ihl hl hdl, ihr hr hdr, ok_bind, evalStep_op,
        Expr.value, pure, pure_eq_ok]
    | mul =>
      obtain ⟨hdl, hdr⟩ := hd
      simp [Expr.rpn, List.foldlM_append, ihl hl hdl, ihr hr hdr, ok_bind, evalStep_op,
        Expr.value, pure, pure_eq_ok]
  | paren e ih =>
    intro stack
    exact ih he hd stack

theorem divisorsNonzero_or_hasZeroDivisor (e : Expr) : e.DivisorsNonzero ∨ e.HasZeroDivisor := by
  induction e with
  | lit t => exact Or.inl trivial
  | bin op l r ihl ihr =>
    rcases ihl with hl | hl
    · rcases ihr with hr | hr
      · cases op with
        | div =>
          by_cases hv : r.value = Num.fin 0
          · exact Or.inr (Or.inr (Or.inr ⟨rfl, hr, hv⟩))
          · exact Or.inl ⟨hl, hr, hv⟩
        | add => exact Or.inl ⟨hl, hr⟩
        | sub => exact Or.inl ⟨hl, hr⟩
        | mul => exact Or.inl ⟨hl, hr⟩
      · exact Or.inr (Or.inr (Or.inl hr))
    · exact Or.inr (Or.inl hl)
  | paren e ih => exact ih

/-- When nothing in the tree is rounded and no divisor is zero, the value in
the arithmetic of doubles is the exact value. -/
theorem value_eq_exactValue (e : Expr) (hx : e.Exact) (hd : e.DivisorsNonzero) :
    e.value = Num.fin e.exactValue := by
  induction e with
  | lit t => exact hx
  | bin op l r ihl ihr =>
    obtain ⟨hxl, hxr, hround⟩ := hx
    cases op with
    | div =>
      obtain ⟨hdl, hdr, hnz⟩ := hd
      have hr := ihr hxr hdr
      have hy : r.exactValue ≠ 0 := by
        intro h0
        rw [hr, h0] at hnz
        exact hnz rfl
      simp only [Expr.value, ihl hxl hdl, hr, Num.div, hy, if_false]
      exact hround
    | add =>
      obtain ⟨hdl, hdr⟩ := hd
      simp only [Expr.value, ihl hxl hdl, ihr hxr hdr, Num.add]
      exact hround
    | sub =>
      obtain ⟨hdl, hdr⟩ := hd
      simp only [Expr.value, ihl hxl hdl, ihr hxr hdr, Num.sub, Num.neg, Num.add]
      have : l.exactValue + -r.exactValue = (Expr.bin BinOp.sub l r).exactValue := by
        simp [Expr.exactValue, sub_eq_add_neg]
      rw [this]
      exact hround
    | mul =>
      obtain ⟨hdl, hdr⟩ := hd
      simp only [Expr.value, ihl hxl hdl, ihr hxr hdr, Num.mul]
      exact hround
  | paren e ih => exact ih hx hd

theorem foldlM_evalStep_zeroDivisor (e : Expr) (he : e.WellFormed) (hz : e.HasZeroDivisor) :
    ∀ stack : List Num, e.rpn.foldlM evalStep stack = .error errDivZero := by
  induction e with
  | lit t => exact absurd hz (by simp [Expr.HasZeroDivisor])
  | bin op l r ihl ihr =>
    intro stack
    obtain ⟨hl, hr, -, -⟩ := he
    by_cases hzl : l.HasZeroDivisor
    · simp [Expr.rpn, List.foldlM_append, ihl hl hzl, error_bind]
    · by_cases hdl : l.DivisorsNonzero
      · by_cases hzr : r.HasZeroDivisor
        · simp [Expr.rpn, List.foldlM_append, foldlM_evalStep_rpn l hl hdl, ihr hr hzr,
            ok_bind, error_bind]
        · rcases hz with h | h | ⟨hop, hdr, hv⟩
          · exact absurd h hzl
          · exact absurd h hzr
          · subst hop
            simp [Expr.rpn, List.foldlM_append, foldlM_evalStep_rpn l hl hdl,
              foldlM_evalStep_rpn r hr hdr, ok_bind, evalStep_op, hv]
      · exact absurd ((divisorsNonzero_or_hasZeroDivisor l).resolve_right hzl) hdl
  | paren e ih =>
    intro stack
    exact ih he hz stack

/-! ### The evaluator on well-formed expressions -/

theorem render_allowed (e : Expr) (he : e.WellFormed) : ∀ c ∈ e.render, isAllowed c = true := by
  induction e with
  | lit t =>
    intro c hc
    have hnum : isNumeric t = true := he
    simp [isAllowed, List.all_eq_true.mp (isNumeric_all hnum) c hc]
  | bin op l r ihl ihr =>
    intro c hc
    obtain ⟨hl, hr, -, -⟩ := he
    simp only [Expr.render, List.mem_append, List.mem_cons] at hc
    rcases hc with h | h | h
    · exact ihl hl c h
    · subst h
      simp [isAllowed, isOpOrParen_opChar]
    · exact ihr hr c h
  | paren e ih =>
    intro c hc
    simp only [Expr.render, List.mem_cons, List.mem_append, List.mem_singleton,
      List.not_mem_nil, or_false] at hc
    rcases hc with h | h | h
    · subst h; decide
    · exact ih he c h
    · subst h; decide

/-- The evaluator on a text whose characters other than white space spell a
well-formed tree: the postfix form of the tree is what gets evaluated. -/
theorem evaluateExpression_eq_evalRPN (e : Expr) (s : Text) (hwf : e.WellFormed)
    (hs : s.filter (fun c => !isSpace c) = e.render) :
    evaluateExpression s = evalRPN e.rpn := by
  have hall : (e.render.any fun c => !isAllowed c) = false := by
    rw [List.any_eq_false]
    intro c hc
    simp [render_allowed e hwf c hc]
  simp only [evaluateExpression, hs, hall, Bool.false_eq_true, if_false, tokenize_render e hwf,
    toRPN_tokens e hwf]

/-- C1, as amended. For a well-formed infix arithmetic expression over
non-negative decimal literals in which no divisor is zero in the arithmetic of
doubles, `evaluateExpression` on any text that spells it (white space
anywhere) returns its value in that arithmetic, every literal and every result
rounded to the nearest double, `*` and `/` binding tighter than `+` and `-`,
equal precedence grouping to the left; when nothing in the expression is
rounded, that is its value in exact arithmetic. -/
theorem evaluateExpression_wellFormed (e : Expr) (s : Text) (hwf : e.WellFormed)
    (hdiv : e.DivisorsNonzero) (hs : s.filter (fun c => !isSpace c) = e.render) :
    evaluateExpression s = .ok e.value ∧
      (e.Exact → evaluateExpression s = .ok (Num.fin e.exactValue)) := by
  have h : evaluateExpression s = .ok e.value := by
    rw [evaluateExpression_eq_evalRPN e s hwf hs]
    simp [evalRPN, foldlM_evalStep_rpn e hwf hdiv []]
  exact ⟨h, fun hx => by rw [h, value_eq_exactValue e hx hdiv]⟩

theorem evaluateExpression_wellFormed_witness :
    evaluateExpression "2+3*4".data = .ok (Num.fin 14) ∧
      evaluateExpression "(2+3)*4".data = .ok (Num.fin 20) ∧
      evaluateExpression " 10 - 3 - 2 ".data = .ok (Num.fin 5) ∧
      evaluateExpression "0.1+0.2".data =
        .ok (Num.fin (5404319552844596 / 18014398509481984)) := by
  refine ⟨?_, ?_, ?_, ?_⟩
  · have h := (evaluateExpression_wellFormed
      (.bin .add (.lit ['2']) (.bin .mul (.lit ['3']) (.lit ['4']))) "2+3*4".data
      (by decide) (by decide!) (by decide)).2 (by decide!)
    have hv : (Expr.bin .add (.lit ['2']) (.bin .mul (.lit ['3']) (.lit ['4']))).exactValue
        = 14 := by decide!
    rw [hv] at h
    exact h
  · have h := (evaluateExpression_wellFormed
      (.bin .mul (.paren (.bin .add (.lit ['2']) (.lit ['3']))) (.lit ['4'])) "(2+3)*4".data
      (by decide) (by decide!) (by decide)).2 (by decide!)
    have hv : (Expr.bin .mul (.paren (.bin .add (.lit ['2']) (.lit ['3'])))
        (.lit ['4'])).exactValue = 20 := by decide!
    rw [hv] at h
    exact h
  · have h := (evaluateExpression_wellFormed
      (.bin .sub (.bin .sub (.lit ['1', '0']) (.lit ['3'])) (.lit ['2'])) " 10 - 3 - 2 ".data
      (by decide) (by decide!) (by decide)).2 (by decide!)
    have hv : (Expr.bin .sub (.bin .sub (.lit ['1', '0']) (.lit ['3']))
        (.lit ['2'])).exactValue = 5 := by decide!
    rw [hv] at h
    exact h
  · have h := (evaluateExpression_wellFormed
      (.bin .add (.lit "0.1".data) (.lit "0.2".data)) "0.1+0.2".data
      (by decide) (by decide!) (by decide)).1
    have hv : (Expr.bin .add (.lit "0.1".data) (.lit "0.2".data)).value =
        Num.fin (5404319552844596 / 18014398509481984) := by decide!
    rw [hv] at h
    exact h

/-- C1, the claim as stated, at `0.1+0.2`: the expression is well formed, it has
no division, its value in exact arithmetic is `3/10`, and `evaluateExpression`
returns the double `0.30000000000000004`, which is not `3/10`. -/
theorem evaluateExpression_sum_rounded :
    (Expr.bin .add (.lit "0.1".data) (.lit "0.2".data)).WellFormed ∧
      (Expr.bin .add (.lit "0.1".data) (.lit "0.2".data)).DivisorsNonzero ∧
      (Expr.bin .add (.lit "0.1".data) (.lit "0.2".data)).render = "0.1+0.2".data ∧
      (Expr.bin .add (.lit "0.1".data) (.lit "0.2".data)).exactValue = 3 / 10 ∧
      evaluateExpression "0.1+0.2".data =
        .ok (Num.fin (5404319552844596 / 18014398509481984)) ∧
      numToString (Num.fin (5404319552844596 / 18014398509481984)) =
        "0.30000000000000004".data ∧
      evaluateExpression "0.1+0.2".data ≠ .ok (Num.fin (3 / 10)) := by
  refine ⟨by decide, by decide, by decide, by decide!, by decide!, by decide!, by decide!⟩

/-- C9. For a well-formed infix expression over non-negative decimal literals
in which the right operand of some division evaluates to zero, as the program
computes it (in the arithmetic of doubles, the operand being exactly `0`),
`evaluateExpression` on any text that spells it fails with the
division-by-zero message and returns no number. -/
theorem evaluateExpression_zeroDivisor (e : Expr) (s : Text) (hwf : e.WellFormed)
    (hz : e.HasZeroDivisor) (hs : s.filter (fun c => !isSpace c) = e.render) :
    evaluateExpression s = .error errDivZero := by
  rw [evaluateExpression_eq_evalRPN e s hwf hs]
  simp [evalRPN, foldlM_evalStep_zeroDivisor e hwf hz []]

theorem evaluateExpression_zeroDivisor_witness :
    evaluateExpression "10/0".data = .error "Division by zero.".data ∧
      evaluateExpression "1/(1-0.99999999999999999)".data =
        .error "Division by zero.".data :=
  ⟨evaluateExpression_zeroDivisor (.bin .div (.lit ['1', '0']) (.lit ['0'])) "10/0".data
    (by decide) (Or.inr (Or.inr ⟨rfl, trivial, by decide!⟩)) (by decide),
   evaluateExpression_zeroDivisor
    (.bin .div (.lit ['1'])
      (.paren (.bin .sub (.lit ['1']) (.lit "0.99999999999999999".data))))
    "1/(1-0.99999999999999999)".data
    (by decide) (Or.inr (Or.inr ⟨rfl, ⟨trivial, trivial⟩, by decide!⟩)) (by decide)⟩

/-- A divisor that is zero in exact arithmetic only, at `1/(0.1+0.2-0.3)`: the
expression is well formed, the right operand of its division is `2 ^ -54` as
the program computes it, and `evaluateExpression` returns the number
`18014398509481984`. -/
theorem evaluateExpression_exact_zero_divisor :
    (Expr.bin .div (.lit ['1'])
        (.paren (.bin .sub (.bin .add (.lit "0.1".data) (.lit "0.2".data))
          (.lit "0.3".data)))).WellFormed ∧
      (Expr.bin .div (.lit ['1'])
        (.paren (.bin .sub (.bin .add (.lit "0.1".data) (.lit "0.2".data))
          (.lit "0.3".data)))).render = "1/(0.1+0.2-0.3)".data ∧
      (Expr.paren (.bin .sub (.bin .add (.lit "0.1".data) (.lit "0.2".data))
          (.lit "0.3".data))).exactValue = 0 ∧
      (Expr.paren (.bin .sub (.bin .add (.lit "0.1".data) (.lit "0.2".data))
          (.lit "0.3".data))).value = Num.fin (1 / 18014398509481984) ∧
      evaluateExpression "1/(0.1+0.2-0.3)".data = .ok (Num.fin 18014398509481984) := by
  refine ⟨by decide, by decide, by decide!, by decide!, by decide!⟩

/-! ### Parentheses -/

theorem count_cons_char (a c : Char) (l : Text) :
    (c :: l).count a = l.count a + (if c = a then 1 else 0) := by
  simp [List.count_cons]

theorem charDepth_balanced (s : Text) :
    ∀ d, charDepth s d = some 0 ↔
      (∀ k, (s.take k).count ')' ≤ d + (s.take k).count '(') ∧ d + s.count '(' = s.count ')' := by
  induction s with
  | nil => intro d; simp [charDepth]
  | cons c cs ih =>
    intro d
    have hk : ∀ k, (∀ a : Char, ((c :: cs).take (k + 1)).count a =
        (cs.take k).count a + (if c = a then 1 else 0)) := by
      intro k a
      rw [List.take_succ_cons, count_cons_char]
    have hc : ∀ a : Char, (c :: cs).count a = cs.count a + (if c = a then 1 else 0) :=
      fun a => count_cons_char a c cs
    by_cases h1 : c = '('
    · subst h1
      simp only [charDepth, if_true, ih (d + 1)]
      have e1 : (if ('(' : Char) = '(' then 1 else 0) = 1 := by decide
      have e2 : (if ('(' : Char) = ')' then 1 else 0) = 0 := by decide
      constructor
      · rintro ⟨ha, hb⟩
        refine ⟨fun k => ?_, ?_⟩
        · cases k with
          | zero => simp
          | succ k =>
            have := ha k
            rw [hk k ')', hk k '(', e1, e2]
            omega
        · rw [hc ')', hc '(', e1, e2]
          omega
      · rintro ⟨ha, hb⟩
        refine ⟨fun k => ?_, ?_⟩
        · have := ha (k + 1)
          rw [hk k ')', hk k '(', e1, e2] at this
          omega
        · rw [hc ')', hc '(', e1, e2] at hb
          omega
    · by_cases h2 : c = ')'
      · subst h2
        have e1 : (if (')' : Char) = '(' then 1 else 0) = 0 := by decide
        have e2 : (if (')' : Char) = ')' then 1 else 0) = 1 := by decide
        have hcd : ∀ d, charDepth (')' :: cs) d = if d = 0 then none else charDepth cs (d - 1) := by
          intro d
          simp [charDepth]
        rw [hcd]
        by_cases hd : d = 0
        · subst hd
          simp only [if_true]
          constructor
          · intro h; cases h
          · rintro ⟨ha, -⟩
            have := ha 1
            rw [hk 0 ')', hk 0 '(', e1, e2] at this
            simp at this
        · simp only [hd, if_false, ih (d - 1)]
          constructor
          · rintro ⟨ha, hb⟩
            refine ⟨fun k => ?_, ?_⟩
            · cases k with
              | zero => simp
              | succ k =>
                have := ha k
                rw [hk k ')', hk k '(', e1, e2]
                omega
            · rw [hc ')', hc '(', e1, e2]
              omega
          · rintro ⟨ha, hb⟩
            refine ⟨fun k => ?_, ?_⟩
            · have := ha (k + 1)
              rw [hk k ')', hk k '(', e1, e2] at this
              omega
            · rw [hc ')', hc '(', e1, e2] at hb
              omega
      · have e1 : (if c = '(' then 1 else 0) = 0 := by simp [h1]
        have e2 : (if c = ')' then 1 else 0) = 0 := by simp [h2]
        simp only [charDepth, h1, h2, if_false, ih d]
        constructor
        · rintro ⟨ha, hb⟩
          refine ⟨fun k => ?_, ?_⟩
          · cases k with
            | zero => simp
            | succ k =>
              have := ha k
              rw [hk k ')', hk k '(', e1, e2]
              omega
          · rw [hc ')', hc '(', e1, e2]
            omega
        · rintro ⟨ha, hb⟩
          refine ⟨fun k => ?_, ?_⟩
          · have := ha (k + 1)
            rw [hk k ')', hk k '(', e1, e2] at this
            omega
          · rw [hc ')', hc '(', e1, e2] at hb
            omega

theorem balanced_iff_charDepth (s : Text) : Balanced s ↔ charDepth s 0 = some 0 := by
  rw [charDepth_balanced s 0]
  simp [Balanced]

theorem charDepth_filter_space (s : Text) :
    ∀ d, charDepth (s.filter (fun c => !isSpace c)) d = charDepth s d := by
  induction s with
  | nil => intro d; rfl
  | cons c cs ih =>
    intro d
    cases hsp : isSpace c with
    | false => simp [List.filter, hsp, charDepth, ih]
    | true =>
      have h1 : c ≠ '(' := by intro h; subst h; exact absurd hsp (by decide)
      have h2 : c ≠ ')' := by intro h; subst h; exact absurd hsp (by decide)
      simp [List.filter, hsp, charDepth, ih, h1, h2]

theorem pushNumber_append (buf : Text) (toks : List Text) :
    pushNumber buf toks = toks ++ pushNumber buf [] := by
  unfold pushNumber
  split <;> simp

theorem tokenizeLoop_tokensOf (s : Text) (hs : ∀ c ∈ s, isAllowed c = true) :
    ∀ (buf : Text) (toks : List Text), tokenizeLoop s buf toks = .ok (toks ++ tokensOf s buf) := by
  induction s with
  | nil =>
    intro buf toks
    simp only [tokenizeLoop, tokensOf]
    rw [pushNumber_append]
  | cons c cs ih =>
    intro buf toks
    have ih1 := ih (fun x hx => hs x (List.mem_cons_of_mem _ hx))
    cases hn : isNumChar c with
    | true => simp [tokenizeLoop, tokensOf, hn, ih1]
    | false =>
      have hop : isOpOrParen c = true := by
        have := hs c (List.mem_cons_self _ _)
        simpa [isAllowed, hn] using this
      simp only [tokenizeLoop, tokensOf, hn, hop, if_true, if_false, Bool.false_eq_true, ih1]
      rw [pushNumber_append buf toks]
      simp

theorem pushNumber_shape (buf : Text) (hb : buf.all isNumChar = true) :
    ∀ t ∈ pushNumber buf [], TokShape t := by
  intro t ht
  unfold pushNumber at ht
  split at ht
  · rename_i hlen
    simp only [List.nil_append, List.mem_singleton] at ht
    subst ht
    exact Or.inl ⟨List.length_pos.mp hlen, hb⟩
  · simp at ht

theorem tokensOf_shape (s : Text) (hs : ∀ c ∈ s, isAllowed c = true) :
    ∀ buf : Text, buf.all isNumChar = true → ∀ t ∈ tokensOf s buf, TokShape t := by
  induction s with
  | nil =>
    intro buf hb t ht
    exact pushNumber_shape buf hb t ht
  | cons c cs ih =>
    intro buf hb t ht
    have ih1 := ih (fun x hx => hs x (List.mem_cons_of_mem _ hx))
    cases hn : isNumChar c with
    | true =>
      simp only [tokensOf, hn, if_true] at ht
      exact ih1 (buf ++ [c]) (by simp [List.all_append, hb, hn]) t ht
    | false =>
      have hop : isOpOrParen c = true := by
        have := hs c (List.mem_cons_self _ _)
        simpa [isAllowed, hn] using this
      simp only [tokensOf, hn, if_false, Bool.false_eq_true, List.mem_append, List.mem_cons] at ht
      rcases ht with h | h | h
      · exact pushNumber_shape buf hb t h
      · exact Or.inr ⟨c, hop, h⟩
      · exact ih1 [] (by simp) t h

theorem ne_paren_of_numChars {t : Text} (h : t.all isNumChar = true) :
    t ≠ ['('] ∧ t ≠ [')'] := by
  constructor <;> (intro h0; subst h0; exact absurd h (by decide))

theorem tokenDepth_pushNumber (buf : Text) (hb : buf.all isNumChar = true) (rest : List Text)
    (d : Nat) : tokenDepth (pushNumber buf [] ++ rest) d = tokenDepth rest d := by
  unfold pushNumber
  split
  · obtain ⟨h1, h2⟩ := ne_paren_of_numChars hb
    simp [tokenDepth, h1, h2]
  · simp

theorem tokenDepth_tokensOf (s : Text) :
    ∀ (buf : Text) (d : Nat), buf.all isNumChar = true →
      tokenDepth (tokensOf s buf) d = charDepth s d := by
  induction s with
  | nil =>
    intro buf d hb
    have := tokenDepth_pushNumber buf hb [] d
    simpa [tokensOf, charDepth, tokenDepth] using this
  | cons c cs ih =>
    intro buf d hb
    cases hn : isNumChar c with
    | true =>
      have h1 : c ≠ '(' := by intro h; subst h; exact absurd hn (by decide)
      have h2 : c ≠ ')' := by intro h; subst h; exact absurd hn (by decide)
      simp only [tokensOf, hn, if_true, charDepth, h1, h2, if_false]
      exact ih _ _ (by simp [List.all_append, hb, hn])
    | false =>
      simp only [tokensOf, hn, if_false, Bool.false_eq_true]
      rw [tokenDepth_pushNumber buf hb]
      simp only [tokenDepth, charDepth, List.cons.injEq, and_true]
      rw [ih [] (d + 1) (by simp), ih [] (d - 1) (by simp), ih [] d (by simp)]

theorem precedence_ne_paren {t : Text} {q : Nat} (h : precedence t = some q) :
    t ≠ ['('] ∧ t ≠ [')'] := by
  constructor <;> (intro h0; subst h0; simp [precedence] at h)

theorem popWhile_stack (p : Nat) (ops : List Text) :
    ∀ out : List Text, ((popWhile p out ops).2.count ['('] = ops.count ['(']) ∧
      ∀ x ∈ (popWhile p out ops).2, x ∈ ops := by
  induction ops with
  | nil => intro out; simp [popWhile]
  | cons top rest ih =>
    intro out
    cases hq : precedence top with
    | none => simp [popWhile, hq]
    | some q =>
      by_cases hqp : q ≥ p
      · obtain ⟨h1, h2⟩ := ih (out ++ [top])
        have hne := (precedence_ne_paren hq).1
        simp only [popWhile, hq, hqp, if_true]
        refine ⟨?_, fun x hx => List.mem_cons_of_mem _ (h2 x hx)⟩
        rw [h1, List.count_cons_of_ne (fun h => hne h.symm)]
      · simp [popWhile, hq, hqp]

theorem popToParen_stack (ops : List Text) :
    ∀ out : List Text,
      ((popToParen out ops).2 = [] → ops.count ['('] = 0) ∧
      (∀ x r, (popToParen out ops).2 = x :: r →
        x = ['('] ∧ ops.count ['('] = r.count ['('] + 1 ∧ ∀ y ∈ r, y ∈ ops) := by
  induction ops with
  | nil => intro out; simp [popToParen]
  | cons top rest ih =>
    intro out
    by_cases ht : top = ['(']
    · subst ht
      have e : popToParen out (['('] :: rest) = (out, ['('] :: rest) := by simp [popToParen]
      rw [e]
      refine ⟨fun h => (by cases h), fun x r h => ?_⟩
      cases h
      exact ⟨rfl, by simp, fun y hy => List.mem_cons_of_mem _ hy⟩
    · obtain ⟨h1, h2⟩ := ih (out ++ [top])
      simp only [popToParen, ne_eq, ht, not_false_eq_true, if_true]
      refine ⟨fun h => ?_, fun x r h => ?_⟩
      · rw [List.count_cons_of_ne (fun h => ht h.symm)]
        exact h1 h
      · obtain ⟨h3, h4, h5⟩ := h2 x r h
        refine ⟨h3, ?_, fun y hy => List.mem_cons_of_mem _ (h5 y hy)⟩
        rw [List.count_cons_of_ne (fun h => ht h.symm)]
        exact h4

/-- The loop of `toRPN` fails only on a `)` at depth zero, with the
mismatched-parentheses message; otherwise the number of `(` on the stack is the
depth of the scan. -/
theorem foldlM_rpnStep_depth (toks : List Text) (hv : ∀ t ∈ toks, TokValid t) :
    ∀ (out ops : List Text), [')'] ∉ ops →
      match toks.foldlM rpnStep (out, ops) with
      | .ok st => tokenDepth toks (ops.count ['(']) = some (st.2.count ['(']) ∧ [')'] ∉ st.2
      | .error e => e = errMismatched ∧ tokenDepth toks (ops.count ['(']) = none := by
  induction toks with
  | nil => intro out ops h; simp [tokenDepth, pure, pure_eq_ok, h]
  | cons t ts ih =>
    intro out ops hops
    have ih1 := ih (fun x hx => hv x (List.mem_cons_of_mem _ hx))
    rcases hv t (List.mem_cons_self _ _) with hnum | hprec | hopen | hclose
    · have h1 : t ≠ ['('] := by intro h; subst h; exact absurd hnum (by decide)
      have h2 : t ≠ [')'] := by intro h; subst h; exact absurd hnum (by decide)
      simp only [List.foldlM_cons, rpnStep, hnum, if_true, ok_bind, tokenDepth, h1, h2, if_false]
      exact ih1 _ _ hops
    · obtain ⟨q, hq⟩ := Option.isSome_iff_exists.mp hprec
      obtain ⟨h1, h2⟩ := precedence_ne_paren hq
      have hnn : isNumeric t = false := by
        cases hn : isNumeric t with
        | false => rfl
        | true =>
          have hall := isNumeric_all hn
          unfold precedence at hq
          split at hq
          · rename_i h; subst h; exact absurd hall (by decide)
          · split at hq
            · rename_i h; subst h; exact absurd hall (by decide)
            · split at hq
              · rename_i h; subst h; exact absurd hall (by decide)
              · split at hq
                · rename_i h; subst h; exact absurd hall (by decide)
                · cases hq
      obtain ⟨h3, h4⟩ := popWhile_stack q ops out
      simp only [List.foldlM_cons, rpnStep, hnn, hq, Bool.false_eq_true, if_false, ok_bind,
        tokenDepth, h1, h2]
      have := ih1 (popWhile q out ops).1 (t :: (popWhile q out ops).2) (by
        intro hmem
        rcases List.mem_cons.mp hmem with h | h
        · exact h2 h.symm
        · exact hops (h4 _ h))
      rw [List.count_cons_of_ne (fun h => h1 h.symm), h3] at this
      exact this
    · subst hopen
      have hn : isNumeric ['('] = false := by decide
      have hp : precedence ['('] = none := by decide
      simp only [List.foldlM_cons, rpnStep, hn, hp, Bool.false_eq_true, if_false, if_true,
        ok_bind, tokenDepth]
      have := ih1 out (['('] :: ops) (by
        intro hmem
        rcases List.mem_cons.mp hmem with h | h
        · exact absurd h (by decide)
        · exact hops h)
      rw [List.count_cons_self] at this
      exact this
    · subst hclose
      have hn : isNumeric [')'] = false := by decide
      have hp : precedence [')'] = none := by decide
      have hne : ([')'] : Text) ≠ ['('] := by decide
      obtain ⟨h1, h2⟩ := popToParen_stack ops out
      simp only [List.foldlM_cons, rpnStep, hn, hp, Bool.false_eq_true, if_false, if_true, hne,
        tokenDepth]
      cases hst : (popToParen out ops).2 with
      | nil =>
        simp [error_bind, h1 hst]
      | cons x r =>
        obtain ⟨-, h3, h4⟩ := h2 x r hst
        have hpos : ops.count ['('] ≠ 0 := by omega
        simp only [ok_bind, hpos, if_false]
        have := ih1 (popToParen out ops).1 r (fun hmem => hops (h4 _ hmem))
        have e : ops.count ['('] - 1 = r.count ['('] := by omega
        rw [e]
        exact this

theorem drainOps_depth (ops : List Text) (h : [')'] ∉ ops) :
    ∀ out : List Text,
      (ops.count ['('] = 0 → ∃ r, drainOps out ops = .ok r) ∧
      (ops.count ['('] ≠ 0 → drainOps out ops = .error errMismatched) := by
  induction ops with
  | nil => intro out; simp [drainOps]
  | cons top rest ih =>
    intro out
    have h2 : top ≠ [')'] := fun h0 => h (by simp [h0])
    have ih1 := ih (fun hm => h (List.mem_cons_of_mem _ hm)) (out ++ [top])
    by_cases h1 : top = ['(']
    · subst h1
      simp [drainOps]
    · simp only [drainOps, h1, h2, decide_False, Bool.or_self, Bool.false_eq_true, if_false,
        List.count_cons_of_ne (fun h => h1 h.symm)]
      exact ih1

/-- The parser `toRPN` on valid tokens fails exactly when the parentheses of
the tokens are not balanced, and then with the mismatched-parentheses message. -/
theorem toRPN_depth (toks : List Text) (hv : ∀ t ∈ toks, TokValid t) :
    (tokenDepth toks 0 = some 0 → ∃ r, toRPN toks = .ok r) ∧
      (tokenDepth toks 0 ≠ some 0 → toRPN toks = .error errMismatched) := by
  have h := foldlM_rpnStep_depth toks hv [] [] (by simp)
  unfold toRPN
  cases hf : toks.foldlM rpnStep ([], []) with
  | error e =>
    rw [hf] at h
    simp only [List.count_nil] at h
    simp [h.1, h.2]
  | ok st =>
    rw [hf] at h
    simp only [List.count_nil] at h
    obtain ⟨h1, h2⟩ := h
    obtain ⟨h3, h4⟩ := drainOps_depth st.2 h2 st.1
    rw [h1]
    exact ⟨fun h0 => h3 (Option.some.inj h0), fun h0 => h4 (fun h5 => h0 (by rw [h5]))⟩

theorem evalStep_error {stack : List Num} {t e : Text} (h : evalStep stack t = .error e) :
    e = errDivZero ∨ e = errUnknownOp ∨ e = errInvalidExpr ∨ e = errInvalidRPNToken := by
  unfold evalStep at h
  repeat' split at h
  all_goals first
    | (cases h; simp)
    | cases h

theorem foldlM_evalStep_error (toks : List Text) :
    ∀ (stack : List Num) (e : Text), toks.foldlM evalStep stack = .error e →
      e = errDivZero ∨ e = errUnknownOp ∨ e = errInvalidExpr ∨ e = errInvalidRPNToken := by
  induction toks with
  | nil => intro stack e h; cases h
  | cons t ts ih =>
    intro stack e h
    rw [List.foldlM_cons] at h
    cases hs : evalStep stack t with
    | error e1 =>
      rw [hs, error_bind] at h
      cases h
      exact evalStep_error hs
    | ok st =>
      rw [hs, ok_bind] at h
      exact ih st e h

theorem evalRPN_ne_mismatched (toks : List Text) : evalRPN toks ≠ .error errMismatched := by
  intro h
  unfold evalRPN at h
  split at h
  · rename_i e hf
    cases h
    rcases foldlM_evalStep_error toks [] _ hf with h1 | h1 | h1 | h1 <;>
      exact absurd h1 (by decide)
  · cases h
  · exact absurd h (by decide)

theorem tokValid_of_shape {t : Text} (hs : TokShape t)
    (hnum : t.all isNumChar = true → isNumeric t = true) : TokValid t := by
  rcases hs with ⟨-, hall⟩ | ⟨c, hc, rfl⟩
  · exact Or.inl (hnum hall)
  · simp only [isOpOrParen, Bool.or_eq_true, beq_iff_eq] at hc
    rcases hc with ((((h | h) | h) | h) | h) | h <;> subst h
    · exact Or.inr (Or.inl (by decide))
    · exact Or.inr (Or.inl (by decide))
    · exact Or.inr (Or.inl (by decide))
    · exact Or.inr (Or.inl (by decide))
    · exact Or.inr (Or.inr (Or.inl rfl))
    · exact Or.inr (Or.inr (Or.inr rfl))

/-- C8. For a text made only of the allowed characters and white space whose
numeric tokens are valid literals, `evaluateExpression` fails with the
mismatched-parentheses message if and only if the parentheses of the text are
not balanced. -/
theorem evaluateExpression_mismatched_iff (s : Text)
    (hchars : ∀ c ∈ s, isAllowed c = true ∨ isSpace c = true)
    (hnum : ∀ toks, tokenize (s.filter (fun c => !isSpace c)) = .ok toks →
      ∀ t ∈ toks, t.all isNumChar = true → isNumeric t = true) :
    evaluateExpression s = .error errMismatched ↔ ¬Balanced s := by
  have hallowed : ∀ c ∈ s.filter (fun c => !isSpace c), isAllowed c = true := by
    intro c hc
    obtain ⟨h1, h2⟩ := List.mem_filter.mp hc
    rcases hchars c h1 with h | h
    · exact h
    · simp [h] at h2
  have htok : tokenize (s.filter (fun c => !isSpace c)) =
      .ok (tokensOf (s.filter (fun c => !isSpace c)) []) := by
    have := tokenizeLoop_tokensOf _ hallowed [] []
    simpa [tokenize] using this
  have hvalid : ∀ t ∈ tokensOf (s.filter (fun c => !isSpace c)) [], TokValid t := fun t ht =>
    tokValid_of_shape (tokensOf_shape _ hallowed [] (by simp) t ht) (hnum _ htok t ht)
  have hdepth : tokenDepth (tokensOf (s.filter (fun c => !isSpace c)) []) 0 = charDepth s 0 := by
    rw [tokenDepth_tokensOf _ [] 0 (by simp), charDepth_filter_space]
  have hany : ((s.filter (fun c => !isSpace c)).any fun c => !isAllowed c) = false := by
    rw [List.any_eq_false]
    intro c hc
    simp [hallowed c hc]
  obtain ⟨hok, herr⟩ := toRPN_depth _ hvalid
  rw [hdepth] at hok herr
  rw [balanced_iff_charDepth]
  simp only [evaluateExpression, hany, Bool.false_eq_true, if_false, htok]
  by_cases hb : charDepth s 0 = some 0
  · obtain ⟨r, hr⟩ := hok hb
    simp only [hr, hb, not_true_eq_false, iff_false]
    exact evalRPN_ne_mismatched r
  · simp [herr hb, hb]

theorem evaluateExpression_mismatched_iff_witness :
    evaluateExpression "(1+2".data = .error "Mismatched parentheses.".data ∧
      evaluateExpression "1+2)".data = .error "Mismatched parentheses.".data := by
  constructor
  · refine (evaluateExpression_mismatched_iff "(1+2".data (by decide) ?_).mpr
      ((balanced_iff_charDepth _).not.mpr (by decide))
    intro toks h
    have ht : tokenize ("(1+2".data.filter (fun c => !isSpace c)) =
        .ok [['('], ['1'], ['+'], ['2']] := by decide
    rw [ht] at h
    cases h
    decide
  · refine (evaluateExpression_mismatched_iff "1+2)".data (by decide) ?_).mpr
      ((balanced_iff_charDepth _).not.mpr (by decide))
    intro toks h
    have ht : tokenize ("1+2)".data.filter (fun c => !isSpace c)) =
        .ok [['1'], ['+'], ['2'], [')']] := by decide
    rw [ht] at h
    cases h
    decide

/-! ## Theorems: the code at the inputs where it departs from the specification -/

/-- C3. A Dynamic variable whose expression refers to a variable of negative
value: `LOSS = 100 - 250` resolves to `-150`, and `TOTAL = LOSS + 1000`, which
stands for `850`, is recorded in `errors` with the invalid-expression message
and has no value. -/
theorem resolveVariables_negative_reference :
    resolveVariables
        [ { name := "LOSS".data, type := VarType.DYNAMIC, expression := "100 - 250".data },
          { name := "TOTAL".data, type := VarType.DYNAMIC, expression := "LOSS + 1000".data } ] =
      { values := [("LOSS".data, Num.fin (-150))],
        errors := [("TOTAL".data, "Invalid expression.".data)] } := by
  decide!

/-- C6. A Dynamic variable `X = D + 1` after a Constant `D` that is not
numeric: `D` gets the invalid-constant message, and `X` gets a
circular-dependency message instead of the message of `D`. -/
theorem resolveVariables_dependency_message :
    resolveVariables
        [ { name := "D".data, type := VarType.CONSTANT, expression := "abc".data },
          { name := "X".data, type := VarType.DYNAMIC, expression := "D + 1".data } ] =
      { values := [],
        errors := [("X".data, "Circular dependency detected at \"D\".".data),
          ("D".data, "Invalid constant value for \"D\". Expected numeric.".data)] } := by
  decide!

/-- C7. A Constant whose trimmed expression is `1.2.3`, which is not a numeric
literal, is given the value `1.2` (the double nearest to it) and no error. -/
theorem resolveVariables_constant_prefix :
    resolveVariables
        [ { name := "RATE".data, type := VarType.CONSTANT, expression := "1.2.3".data } ] =
      { values := [("RATE".data, Num.fin (5404319552844595 / 4503599627370496))],
        errors := [] } := by
  decide!

/-- C10. A formula whose leftmost identifier names a variable that
`resolveVariables` recorded in `errors`: the execution fails with the
unknown-variable message, not with the variable-has-error message. -/
theorem performExecution_errored_variable :
    performExecution "A + 1".data []
        (resolveVariables
          [ { name := "A".data, type := VarType.CONSTANT, expression := "abc".data } ]).values
        (resolveVariables
          [ { name := "A".data, type := VarType.CONSTANT, expression := "abc".data } ]).errors =
      .error "Unknown variable \"A\" in formula.".data := by
  decide!

/-- C13. An invocation of `resolve` that fails leaves its name in the set
`resolving`: for the Constant `D = abc` the call throws and the set, empty
before, holds `D` afterwards. -/
theorem resolve_failure_keeps_resolving :
    resolve [ { name := "D".data, type := VarType.CONSTANT, expression := "abc".data } ] 2
        "D".data { values := [], resolving := [] } =
      (Res.thrown "Invalid constant value for \"D\". Expected numeric.".data,
        { values := [], resolving := ["D".data] }) := by
  decide!

/-- C14. The text `(1)(2)+` is not a well-formed infix expression: two operands
stand next to each other and the operator comes last; `evaluateExpression`
returns `3` for it. -/
theorem evaluateExpression_accepts_malformed :
    evaluateExpression "(1)(2)+".data = .ok (Num.fin 3) := by
  decide!

/-! ## Theorems: the resolver -/

theorem substValues_mono {val1 val2 : Text → Option Num}
    (hv : ∀ n y, val1 n = some y → val2 n = some y) (ps : List Piece) :
    ∀ acc t, substValues val1 ps acc = some t → substValues val2 ps acc = some t := by
  induction ps with
  | nil => intro acc t h; exact h
  | cons p rest ih =>
    intro acc t h
    cases p with
    | other u => exact ih _ _ h
    | ident n =>
      simp only [substValues] at h ⊢
      cases hn : val1 n with
      | none => rw [hn] at h; cases h
      | some v =>
        rw [hn] at h
        rw [hv n v hn]
        exact ih _ _ h

theorem substValues_ident {val : Text → Option Num} (ps : List Piece) :
    ∀ acc t, substValues val ps acc = some t → ∀ n ∈ pieceIdents ps, ∃ y, val n = some y := by
  induction ps with
  | nil => intro acc t _ n hn; cases hn
  | cons p rest ih =>
    intro acc t h n hn
    cases p with
    | other u => exact ih _ _ h n hn
    | ident m =>
      simp only [substValues] at h
      cases hm : val m with
      | none => rw [hm] at h; cases h
      | some v =>
        rw [hm] at h
        rcases List.mem_cons.mp hn with h1 | h1
        · exact ⟨v, h1 ▸ hm⟩
        · exact ih _ _ h n h1

theorem substValues_congr (val1 val2 : Text → Option Num) (ps : List Piece)
    (hv : ∀ n ∈ pieceIdents ps, val1 n = val2 n) :
    ∀ acc, substValues val1 ps acc = substValues val2 ps acc := by
  induction ps with
  | nil => intro acc; rfl
  | cons p rest ih =>
    intro acc
    cases p with
    | other u => exact ih (fun n hn => hv n hn) _
    | ident m =>
      simp only [substValues]
      rw [hv m (List.mem_cons_self _ _)]
      cases val2 m with
      | none => rfl
      | some v => exact ih (fun n hn => hv n (List.mem_cons_of_mem _ hn)) _

theorem valueOf_succ (c : List Variable) (h : Nat) (name : Text) :
    valueOf c (h + 1) name =
      match mapGet c name with
      | none => none
      | some varDef =>
        match varDef.type with
        | VarType.CONSTANT =>
          if parseFloat (trim varDef.expression) = Num.nan then none
          else some (parseFloat (trim varDef.expression))
        | VarType.DYNAMIC =>
          match substValues (valueOf c h) (pieces (trim varDef.expression)) [] with
          | none => none
          | some text =>
            match evaluateExpression text with
            | Except.ok r => some r
            | Except.error _ => none := rfl

theorem valueOf_mono_succ (c : List Variable) :
    ∀ h name x, valueOf c h name = some x → valueOf c (h + 1) name = some x := by
  intro h
  induction h with
  | zero => intro name x hx; cases hx
  | succ h ih =>
    intro name x hx
    rw [valueOf_succ] at hx ⊢
    cases hm : mapGet c name with
    | none => rw [hm] at hx; cases hx
    | some vd =>
      rw [hm] at hx
      simp only at hx ⊢
      cases ht : vd.type with
      | CONSTANT => rw [ht] at hx; exact hx
      | DYNAMIC =>
        rw [ht] at hx
        simp only at hx ⊢
        cases hs : substValues (valueOf c h) (pieces (trim vd.expression)) [] with
        | none => rw [hs] at hx; cases hx
        | some text =>
          rw [hs] at hx
          rw [substValues_mono (fun n y => ih n y) _ _ _ hs]
          exact hx

theorem valueOf_mono (c : List Variable) {h h1 : Nat} (hle : h ≤ h1) {name : Text} {x : Num}
    (hx : valueOf c h name = some x) : valueOf c h1 name = some x := by
  induction hle with
  | refl => exact hx
  | step _ ih => exact valueOf_mono_succ c _ _ _ ih

theorem valueOf_det (c : List Variable) {h1 h2 : Nat} {name : Text} {x y : Num}
    (hx : valueOf c h1 name = some x) (hy : valueOf c h2 name = some y) : x = y := by
  have h3 := valueOf_mono c (Nat.le_max_left h1 h2) hx
  have h4 := valueOf_mono c (Nat.le_max_right h1 h2) hy
  rw [h3] at h4
  exact Option.some.inj h4

theorem substValues_det (c : List Variable) {h1 h2 : Nat} {ps : List Piece} {acc t1 t2 : Text}
    (hx : substValues (valueOf c h1) ps acc = some t1)
    (hy : substValues (valueOf c h2) ps acc = some t2) : t1 = t2 := by
  have h3 := substValues_mono (fun n y => valueOf_mono c (Nat.le_max_left h1 h2)) ps acc t1 hx
  have h4 := substValues_mono (fun n y => valueOf_mono c (Nat.le_max_right h1 h2)) ps acc t2 hy
  rw [h3] at h4
  exact Option.some.inj h4

theorem noValue_of_valueOf_none_mono (c : List Variable) {h : Nat} {k : Text}
    (hk : valueOf c (h + 1) k = none) : valueOf c h k = none := by
  cases hv : valueOf c h k with
  | none => rfl
  | some x => rw [valueOf_mono_succ c h k x hv] at hk; cases hk

theorem mem_mapKeys (c : List Variable) (k : Text) :
    k ∈ mapKeys c ↔ ∃ v ∈ c, v.name = k := by
  induction c with
  | nil => simp [mapKeys]
  | cons v vs ih =>
    simp only [mapKeys, List.mem_cons, List.mem_filter, ih, decide_eq_true_eq]
    constructor
    · rintro (h | ⟨⟨w, hw, hwk⟩, _⟩)
      · exact ⟨v, Or.inl rfl, h.symm⟩
      · exact ⟨w, Or.inr hw, hwk⟩
    · rintro ⟨w, hw | hw, hwk⟩
      · subst hw
        exact Or.inl hwk.symm
      · by_cases hk : k = v.name
        · exact Or.inl hk
        · exact Or.inr ⟨⟨w, hw, hwk⟩, hk⟩

theorem mapGet_some (c : List Variable) {k : Text} {v : Variable} (h : mapGet c k = some v) :
    v ∈ c ∧ v.name = k := by
  induction c with
  | nil => cases h
  | cons w ws ih =>
    simp only [mapGet] at h
    cases hw : mapGet ws k with
    | some u =>
      rw [hw] at h
      cases h
      exact ⟨List.mem_cons_of_mem _ (ih hw).1, (ih hw).2⟩
    | none =>
      rw [hw] at h
      simp only at h
      split at h
      · rename_i hn
        cases h
        exact ⟨List.mem_cons_self _ _, hn⟩
      · cases h

theorem mapGet_isSome_of_mem (c : List Variable) {k : Text} (h : k ∈ mapKeys c) :
    ∃ v, mapGet c k = some v := by
  obtain ⟨v, hv, hk⟩ := (mem_mapKeys c k).mp h
  clear h
  induction c with
  | nil => cases hv
  | cons w ws ih =>
    simp only [mapGet]
    cases hw : mapGet ws k with
    | some u => exact ⟨u, rfl⟩
    | none =>
      rcases List.mem_cons.mp hv with h1 | h1
      · subst h1
        exact ⟨v, by simp [hk]⟩
      · obtain ⟨u, hu⟩ := ih h1
        rw [hu] at hw
        cases hw

theorem mem_mapKeys_of_mapGet (c : List Variable) {k : Text} {v : Variable}
    (h : mapGet c k = some v) : k ∈ mapKeys c :=
  (mem_mapKeys c k).mpr ⟨v, (mapGet_some c h).1, (mapGet_some c h).2⟩

theorem valueOf_none_of_mapGet_none (c : List Variable) {k : Text} (h : mapGet c k = none) :
    NoValue c k := by
  intro n
  cases n with
  | zero => rfl
  | succ n => rw [valueOf_succ, h]

theorem countP_lt_of_mem {α : Type} (p q : α → Bool) (l : List α) (a : α) (ha : a ∈ l)
    (hpq : ∀ x, p x = true → q x = true) (hq : q a = true) (hp : p a = false) :
    l.countP p < l.countP q := by
  induction l with
  | nil => cases ha
  | cons b bs ih =>
    have hle : bs.countP p ≤ bs.countP q := List.countP_mono_left (fun x _ => hpq x)
    rcases List.mem_cons.mp ha with h | h
    · subst h
      rw [List.countP_cons_of_pos _ _ hq, List.countP_cons_of_neg _ _ (by simp [hp])]
      omega
    · have := ih h
      cases hb : p b with
      | true =>
        rw [List.countP_cons_of_pos _ _ hb, List.countP_cons_of_pos _ _ (hpq b hb)]
        omega
      | false =>
        rw [List.countP_cons_of_neg _ _ (by simp [hb])]
        cases hqb : q b with
        | true => rw [List.countP_cons_of_pos _ _ hqb]; omega
        | false => rw [List.countP_cons_of_neg _ _ (by simp [hqb])]; exact this

theorem pending_le (c : List Variable) (r : List Text) : pending c r ≤ (mapKeys c).length :=
  List.countP_le_length _

theorem pending_mono (c : List Variable) {r r1 : List Text} (h : ∀ k ∈ r, k ∈ r1) :
    pending c r1 ≤ pending c r := by
  apply List.countP_mono_left
  intro x _ hx
  simp only [decide_eq_true_eq] at hx ⊢
  exact fun hxr => hx (h x hxr)

theorem pending_lt (c : List Variable) {r r1 : List Text} {name : Text}
    (hk : name ∈ mapKeys c) (hn : name ∉ r) (h : ∀ k ∈ name :: r, k ∈ r1) :
    pending c r1 < pending c r := by
  apply countP_lt_of_mem _ _ _ name hk
  · intro x hx
    simp only [decide_eq_true_eq] at hx ⊢
    exact fun hxr => hx (h x (List.mem_cons_of_mem _ hxr))
  · simpa using hn
  · simpa using h name (List.mem_cons_self _ _)

theorem getKey_cons {β : Type} (k : Text) (v : β) (rest : List (Text × β)) (name : Text) :
    getKey ((k, v) :: rest) name = if k = name then some v else getKey rest name := rfl

/-! ### The paths through `resolve` -/

theorem resolve_memo (c : List Variable) (fuel : Nat) (name : Text) (st : RState) (v : Num)
    (h : getKey st.values name = some v) : resolve c (fuel + 1) name st = (Res.ok v, st) := by
  simp [resolve, h]

theorem resolve_notDefined (c : List Variable) (fuel : Nat) (name : Text) (st : RState)
    (h : getKey st.values name = none) (hm : mapGet c name = none) :
    resolve c (fuel + 1) name st = (Res.thrown (errNotDefined name), st) := by
  simp [resolve, h, hm]

theorem resolve_circular (c : List Variable) (fuel : Nat) (name : Text) (st : RState)
    (vd : Variable) (h : getKey st.values name = none) (hm : mapGet c name = some vd)
    (hr : name ∈ st.resolving) :
    resolve c (fuel + 1) name st = (Res.thrown (errCircular name), st) := by
  simp [resolve, h, hm, hr]

theorem resolve_constant (c : List Variable) (fuel : Nat) (name : Text) (st : RState)
    (vd : Variable) (h : getKey st.values name = none) (hm : mapGet c name = some vd)
    (hr : name ∉ st.resolving) (ht : vd.type = VarType.CONSTANT) :
    resolve c (fuel + 1) name st =
      if parseFloat (trim vd.expression) = Num.nan then
        (Res.thrown (errInvalidConstant name),
          { values := st.values, resolving := name :: st.resolving })
      else
        (Res.ok (parseFloat (trim vd.expression)),
          { values := (name, parseFloat (trim vd.expression)) :: st.values,
            resolving := (name :: st.resolving).filter (fun k => k ≠ name) }) := by
  simp only [resolve, h, hm, hr, if_false, ht]

theorem resolve_dynamic (c : List Variable) (fuel : Nat) (name : Text) (st : RState)
    (vd : Variable) (h : getKey st.values name = none) (hm : mapGet c name = some vd)
    (hr : name ∉ st.resolving) (ht : vd.type = VarType.DYNAMIC) :
    resolve c (fuel + 1) name st =
      match replaceIdents (resolveCallback c (resolve c fuel) name)
          (pieces (trim vd.expression)) [] { values := st.values, resolving := name :: st.resolving } with
      | (Res.ok expr1, st2) =>
        match evaluateExpression expr1 with
        | Except.error e => (Res.thrown e, st2)
        | Except.ok result =>
          (Res.ok result,
            { values := (name, result) :: st2.values,
              resolving := st2.resolving.filter (fun k => k ≠ name) })
      | (Res.thrown e, st2) => (Res.thrown e, st2)
      | (Res.diverge, st2) => (Res.diverge, st2) := by
  simp only [resolve, h, hm, hr, if_false, ht]

/-- The replacement loop, when every callback keeps an invariant of the state
and either returns the string form of the value of its identifier or throws
into a state that is `Bad`: the loop returns the text with the values put in, or
throws into a `Bad` state. -/
theorem replaceIdents_spec (c : List Variable) {σ : Type} (cb : Text → σ → Res Text × σ)
    (Inv : σ → Prop) (Bad : Text → σ → Prop) (ps : List Piece)
    (hcb : ∀ n ∈ pieceIdents ps, ∀ s, Inv s →
      (∃ v s1 h, cb n s = (Res.ok (numToString v), s1) ∧ Inv s1 ∧ valueOf c h n = some v) ∨
      (∃ e s1, cb n s = (Res.thrown e, s1) ∧ Bad e s1)) :
    ∀ acc s, Inv s →
      (∃ text s1 h, replaceIdents cb ps acc s = (Res.ok text, s1) ∧ Inv s1 ∧
        substValues (valueOf c h) ps acc = some text) ∨
      (∃ e s1, replaceIdents cb ps acc s = (Res.thrown e, s1) ∧ Bad e s1) := by
  induction ps with
  | nil =>
    intro acc s hs
    exact Or.inl ⟨acc, s, 0, rfl, hs, rfl⟩
  | cons p rest ih =>
    intro acc s hs
    cases p with
    | other u =>
      have := ih (fun n hn => hcb n hn) (acc ++ u) s hs
      simpa [replaceIdents, substValues] using this
    | ident m =>
      rcases hcb m (List.mem_cons_self _ _) s hs with ⟨v, s1, h, h1, h2, h3⟩ | ⟨e, s1, h1, h2⟩
      · rcases ih (fun n hn => hcb n (List.mem_cons_of_mem _ hn)) (acc ++ numToString v) s1 h2
          with ⟨text, s2, h4, h5, h6, h7⟩ | ⟨e, s2, h5, h6⟩
        · left
          refine ⟨text, s2, max h h4, ?_, h6, ?_⟩
          · simp [replaceIdents, h1, h5]
          · simp only [substValues, valueOf_mono c (Nat.le_max_left h h4) h3]
            exact substValues_mono (fun n y => valueOf_mono c (Nat.le_max_right h h4)) _ _ _ h7
        · right
          exact ⟨e, s2, by simp [replaceIdents, h1, h5], h6⟩
      · right
        exact ⟨e, s1, by simp [replaceIdents, h1], h2⟩

theorem mem_filter_ne_cons (name k : Text) (r r2 : List Text) (hn : name ∉ r)
    (h2 : ∀ j, j ∈ r2 ↔ j ∈ name :: r) :
    k ∈ r2.filter (fun j => j ≠ name) ↔ k ∈ r := by
  simp only [List.mem_filter, h2, List.mem_cons, decide_eq_true_eq]
  constructor
  · rintro ⟨h | h, hne⟩
    · exact absurd h hne
    · exact h
  · intro h
    exact ⟨Or.inr h, fun hk => hn (hk ▸ h)⟩

theorem sound_cons (c : List Variable) {vals : List (Text × Num)} {name : Text} {x : Num} {h : Nat}
    (hs : Sound c vals) (hx : valueOf c h name = some x) : Sound c ((name, x) :: vals) := by
  intro k v hk
  rw [getKey_cons] at hk
  split at hk
  · rename_i hkn
    cases hk
    exact ⟨h, hkn ▸ hx⟩
  · exact hs k v hk

theorem getKey_cons_mono {vals vals2 : List (Text × Num)} {name : Text} {x : Num}
    (hnone : getKey vals name = none)
    (hm : ∀ k v, getKey vals k = some v → getKey vals2 k = some v) :
    ∀ k v, getKey vals k = some v → getKey ((name, x) :: vals2) k = some v := by
  intro k v hk
  rw [getKey_cons]
  split
  · rename_i hkn
    rw [← hkn, hnone] at hk
    cases hk
  · exact hm k v hk

/-- A name that has a value by the definitions resolves to it, from any state
whose set `resolving` holds no name that the value depends on; the set is the
same afterwards. -/
theorem resolve_complete (c : List Variable) :
    ∀ h name x, valueOf c h name = some x → ∀ fuel st, Sound c st.values →
      (∀ k ∈ st.resolving, valueOf c h k = none) → pending c st.resolving < fuel →
      ∃ st1, resolve c fuel name st = (Res.ok x, st1) ∧
        (∀ k, k ∈ st1.resolving ↔ k ∈ st.resolving) ∧ Sound c st1.values ∧
        (∀ k v, getKey st.values k = some v → getKey st1.values k = some v) ∧
        getKey st1.values name = some x := by
  intro h
  induction h with
  | zero => intro name x hx; cases hx
  | succ h ih =>
    intro name x hx fuel st hsound hj hfuel
    cases hlow : valueOf c h name with
    | some x1 =>
      have hxx := valueOf_det c hlow hx
      subst hxx
      exact ih name x1 hlow fuel st hsound
        (fun k hk => noValue_of_valueOf_none_mono c (hj k hk)) hfuel
    | none =>
      obtain ⟨f, rfl⟩ : ∃ f, fuel = f + 1 := ⟨fuel - 1, by omega⟩
      cases hget : getKey st.values name with
      | some v =>
        obtain ⟨h1, hv⟩ := hsound name v hget
        have hvx := valueOf_det c hv hx
        subst hvx
        rw [resolve_memo c f name st v hget]
        exact ⟨st, rfl, fun k => Iff.rfl, hsound, fun k v hk => hk, hget⟩
      | none =>
        have hx0 := hx
        rw [valueOf_succ] at hx
        cases hm : mapGet c name with
        | none => rw [hm] at hx; cases hx
        | some vd =>
          rw [hm] at hx
          simp only at hx
          have hnr : name ∉ st.resolving := by
            intro hmem
            rw [hj name hmem] at hx0
            cases hx0
          cases ht : vd.type with
          | CONSTANT =>
            rw [ht] at hx
            simp only at hx
            split at hx
            · cases hx
            · rename_i hnan
              simp only [Option.some.injEq] at hx
              rw [resolve_constant c f name st vd hget hm hnr ht, if_neg hnan, hx]
              refine ⟨_, rfl, ?_, sound_cons c hsound hx0, ?_, ?_⟩
              · intro k
                exact mem_filter_ne_cons name k st.resolving _ hnr (fun j => Iff.rfl)
              · exact getKey_cons_mono hget (fun k v hk => hk)
              · simp [getKey_cons]
          | DYNAMIC =>
            rw [ht] at hx
            simp only at hx
            cases hs : substValues (valueOf c h) (pieces (trim vd.expression)) [] with
            | none => rw [hs] at hx; cases hx
            | some text =>
              rw [hs] at hx
              simp only at hx
              cases he : evaluateExpression text with
              | error e => rw [he] at hx; cases hx
              | ok r =>
                rw [he] at hx
                simp only [Option.some.injEq] at hx
                subst hx
                have hspec := replaceIdents_spec c (resolveCallback c (resolve c f) name)
                  (fun s => (∀ k, k ∈ s.resolving ↔ k ∈ name :: st.resolving) ∧
                    Sound c s.values ∧
                    (∀ k v, getKey st.values k = some v → getKey s.values k = some v))
                  (fun _ _ => False) (pieces (trim vd.expression)) (by
                    intro n hn s ⟨hs1, hs2, hs3⟩
                    left
                    obtain ⟨y, hy⟩ := substValues_ident _ _ _ hs n hn
                    have hmn : ∃ w, mapGet c n = some w := by
                      cases hmn : mapGet c n with
                      | some w => exact ⟨w, rfl⟩
                      | none =>
                        rw [valueOf_none_of_mapGet_none c hmn h] at hy
                        cases hy
                    obtain ⟨w, hw⟩ := hmn
                    have hpend : pending c s.resolving < f := by
                      have := pending_lt c (mem_mapKeys_of_mapGet c hm) hnr
                        (fun k hk => (hs1 k).mpr hk)
                      omega
                    obtain ⟨s1, hr1, hr2, hr3, hr4, -⟩ := ih n y hy f s hs2 (by
                      intro k hk
                      rcases List.mem_cons.mp ((hs1 k).mp hk) with h1 | h1
                      · rw [h1]; exact hlow
                      · exact noValue_of_valueOf_none_mono c (hj k h1)) hpend
                    refine ⟨y, s1, h, ?_, ⟨fun k => (hr2 k).trans (hs1 k), hr3,
                      fun k v hk => hr4 k v (hs3 k v hk)⟩, hy⟩
                    simp [resolveCallback, hw, hr1])
                  [] { values := st.values, resolving := name :: st.resolving }
                  ⟨fun k => Iff.rfl, hsound, fun k v hk => hk⟩
                rcases hspec with ⟨text1, s2, h2, hrep, ⟨hi1, hi2, hi3⟩, hsub⟩ | ⟨_, _, _, hF⟩
                · have htt := substValues_det c hsub hs
                  subst htt
                  rw [resolve_dynamic c f name st vd hget hm hnr ht]
                  simp only [hrep, he]
                  refine ⟨_, rfl, ?_, sound_cons c hi2 hx0, getKey_cons_mono hget hi3, ?_⟩
                  · intro k
                    exact mem_filter_ne_cons name k st.resolving _ hnr hi1
                  · simp [getKey_cons]
                · exact absurd hF id

theorem noValue_of_not_exists (c : List Variable) {name : Text}
    (h : ¬∃ n x, valueOf c n name = some x) : NoValue c name := by
  intro n
  cases hv : valueOf c n name with
  | none => rfl
  | some x => exact absurd ⟨n, x, hv⟩ h

/-- From a state whose set `resolving` holds only names without a value, a
call of `resolve` with fuel for the names not yet in the set returns or throws
(the fuel is not used up): it returns exactly when the name has a value, and a
thrown message has one of the causes. The state it leaves is of the same kind. -/
theorem resolve_total (c : List Variable) :
    ∀ fuel name st, Sound c st.values → Stuck c st → pending c st.resolving < fuel →
      ∃ r st1, resolve c fuel name st = (r, st1) ∧ Stuck c st1 ∧ Sound c st1.values ∧
        (∀ k ∈ st.resolving, k ∈ st1.resolving) ∧
        (∀ k v, getKey st.values k = some v → getKey st1.values k = some v) ∧
        ((∃ x, r = Res.ok x ∧ getKey st1.values name = some x) ∨
         (∃ e, r = Res.thrown e ∧ NoValue c name ∧ (mapGet c name = none ∨ Cause c e))) := by
  intro fuel
  induction fuel with
  | zero => intro name st _ _ hf; omega
  | succ f ih =>
    intro name st hsound hstuck hfuel
    by_cases hv : ∃ n x, valueOf c n name = some x
    · obtain ⟨n, x, hx⟩ := hv
      obtain ⟨st1, h1, h2, h3, h4, h5⟩ := resolve_complete c n name x hx (f + 1) st hsound
        (fun k hk => hstuck k hk n) hfuel
      exact ⟨Res.ok x, st1, h1, fun k hk => hstuck k ((h2 k).mp hk), h3,
        fun k hk => (h2 k).mpr hk, h4, Or.inl ⟨x, rfl, h5⟩⟩
    · have hnv := noValue_of_not_exists c hv
      cases hget : getKey st.values name with
      | some v =>
        obtain ⟨n, hn⟩ := hsound name v hget
        rw [hnv n] at hn
        cases hn
      | none =>
        cases hm : mapGet c name with
        | none =>
          exact ⟨_, _, resolve_notDefined c f name st hget hm, hstuck, hsound,
            fun k hk => hk, fun k v hk => hk,
            Or.inr ⟨_, rfl, hnv, Or.inl rfl⟩⟩
        | some vd =>
          by_cases hr : name ∈ st.resolving
          · exact ⟨_, _, resolve_circular c f name st vd hget hm hr, hstuck, hsound,
              fun k hk => hk, fun k v hk => hk,
              Or.inr ⟨_, rfl, hnv, Or.inr (Cause.circular name)⟩⟩
          · have hstuck1 : Stuck c { values := st.values, resolving := name :: st.resolving } := by
              intro k hk
              rcases List.mem_cons.mp hk with h1 | h1
              · rw [h1]; exact hnv
              · exact hstuck k h1
            cases ht : vd.type with
            | CONSTANT =>
              by_cases hp : parseFloat (trim vd.expression) = Num.nan
              · refine ⟨_, _, ?_, hstuck1, hsound, fun k hk => List.mem_cons_of_mem _ hk,
                  fun k v hk => hk,
                  Or.inr ⟨_, rfl, hnv, Or.inr (Cause.invalidConstant name vd hm ht hp)⟩⟩
                rw [resolve_constant c f name st vd hget hm hr ht, if_pos hp]
              · have := hnv 1
                rw [valueOf_succ, hm] at this
                simp only [ht, hp, if_false] at this
                cases this
            | DYNAMIC =>
              have hspec := replaceIdents_spec c (resolveCallback c (resolve c f) name)
                (fun s => Stuck c s ∧ Sound c s.values ∧
                  (∀ k ∈ name :: st.resolving, k ∈ s.resolving) ∧
                  (∀ k v, getKey st.values k = some v → getKey s.values k = some v))
                (fun e s => (Stuck c s ∧ Sound c s.values ∧
                  (∀ k ∈ name :: st.resolving, k ∈ s.resolving) ∧
                  (∀ k v, getKey st.values k = some v → getKey s.values k = some v)) ∧
                  Cause c e)
                (pieces (trim vd.expression)) (by
                  intro n hn s ⟨hs1, hs2, hs3, hs4⟩
                  cases hmn : mapGet c n with
                  | none =>
                    right
                    exact ⟨errUnknownVariable n name, s, by simp [resolveCallback, hmn],
                      ⟨hs1, hs2, hs3, hs4⟩, Cause.unknownVariable name n vd hm ht hn hmn⟩
                  | some w =>
                    have hpend : pending c s.resolving < f := by
                      have := pending_lt c (mem_mapKeys_of_mapGet c hm) hr hs3
                      omega
                    obtain ⟨r, s1, hr1, hr2, hr3, hr4, hr5, hr6⟩ := ih n s hs2 hs1 hpend
                    rcases hr6 with ⟨x, rfl, hx⟩ | ⟨e, rfl, -, hc⟩
                    · left
                      obtain ⟨h, hh⟩ := hr3 n x hx
                      exact ⟨x, s1, h, by simp [resolveCallback, hmn, hr1],
                        ⟨hr2, hr3, fun k hk => hr4 k (hs3 k hk),
                          fun k v hk => hr5 k v (hs4 k v hk)⟩, hh⟩
                    · right
                      have hc1 : Cause c e := by
                        rcases hc with hc | hc
                        · rw [hmn] at hc; cases hc
                        · exact hc
                      exact ⟨e, s1, by simp [resolveCallback, hmn, hr1],
                        ⟨hr2, hr3, fun k hk => hr4 k (hs3 k hk),
                          fun k v hk => hr5 k v (hs4 k v hk)⟩, hc1⟩)
                [] { values := st.values, resolving := name :: st.resolving }
                ⟨hstuck1, hsound, fun k hk => hk, fun k v hk => hk⟩
              rcases hspec with ⟨text, s2, h2, hrep, ⟨hi1, hi2, hi3, hi4⟩, hsub⟩ |
                ⟨e, s2, hrep, ⟨hi1, hi2, hi3, hi4⟩, hc⟩
              · cases he : evaluateExpression text with
                | ok r =>
                  have := hnv (h2 + 1)
                  rw [valueOf_succ, hm] at this
                  simp only [ht, hsub, he] at this
                  cases this
                | error e =>
                  refine ⟨Res.thrown e, s2, ?_, hi1, hi2,
                    fun k hk => hi3 k (List.mem_cons_of_mem _ hk), hi4,
                    Or.inr ⟨e, rfl, hnv, Or.inr (Cause.evaluator name vd h2 text e hm ht hsub he)⟩⟩
                  rw [resolve_dynamic c f name st vd hget hm hr ht]
                  simp only [hrep, he]
              · refine ⟨Res.thrown e, s2, ?_, hi1, hi2,
                  fun k hk => hi3 k (List.mem_cons_of_mem _ hk), hi4,
                  Or.inr ⟨e, rfl, hnv, Or.inr hc⟩⟩
                rw [resolve_dynamic c f name st vd hget hm hr ht]
                simp only [hrep]

/-! ### The loop over the keys -/

theorem resolveAll_spec (c : List Variable) (fuel : Nat) (hf : (mapKeys c).length < fuel) :
    ∀ keys st errs, (∀ k ∈ keys, k ∈ mapKeys c) → Sound c st.values → Stuck c st →
      ErrSound c errs →
      Sound c (resolveAll c fuel keys st errs).1.values ∧
      ErrSound c (resolveAll c fuel keys st errs).2 ∧
      (∀ k v, getKey st.values k = some v →
        getKey (resolveAll c fuel keys st errs).1.values k = some v) ∧
      (∀ k, (getKey errs k).isSome = true →
        (getKey (resolveAll c fuel keys st errs).2 k).isSome = true) ∧
      (∀ k ∈ keys, (getKey (resolveAll c fuel keys st errs).1.values k).isSome = true ∨
        (getKey (resolveAll c fuel keys st errs).2 k).isSome = true) := by
  intro keys
  induction keys with
  | nil =>
    intro st errs _ hs _ he
    exact ⟨hs, he, fun k v hk => hk, fun k hk => hk, fun k hk => by cases hk⟩
  | cons name rest ih =>
    intro st errs hkeys hs hstuck he
    have hrest : ∀ k ∈ rest, k ∈ mapKeys c := fun k hk => hkeys k (List.mem_cons_of_mem _ hk)
    have hpend : pending c st.resolving < fuel := lt_of_le_of_lt (pending_le c _) hf
    obtain ⟨r, st1, hres, h1, h2, -, h4, h5⟩ := resolve_total c fuel name st hs hstuck hpend
    rcases h5 with ⟨x, rfl, hx⟩ | ⟨e, rfl, hnv, hc⟩
    · obtain ⟨i1, i2, i3, i4, i5⟩ := ih st1 errs hrest h2 h1 he
      simp only [resolveAll, hres]
      refine ⟨i1, i2, fun k v hk => i3 k v (h4 k v hk), i4, ?_⟩
      intro k hk
      rcases List.mem_cons.mp hk with h | h
      · left
        rw [h, i3 name x hx]
        rfl
      · exact i5 k h
    · have hc1 : Cause c e := by
        rcases hc with hc | hc
        · obtain ⟨w, hw⟩ := mapGet_isSome_of_mem c (hkeys name (List.mem_cons_self _ _))
          rw [hw] at hc
          cases hc
        · exact hc
      have he1 : ErrSound c ((name, e) :: errs) := by
        intro k m hk
        rw [getKey_cons] at hk
        split at hk
        · rename_i hkn
          cases hk
          exact ⟨hkn ▸ hnv, hc1⟩
        · exact he k m hk
      obtain ⟨i1, i2, i3, i4, i5⟩ := ih st1 ((name, e) :: errs) hrest h2 h1 he1
      simp only [resolveAll, hres]
      refine ⟨i1, i2, fun k v hk => i3 k v (h4 k v hk), ?_, ?_⟩
      · intro k hk
        apply i4
        rw [getKey_cons]
        split
        · rfl
        · exact hk
      · intro k hk
        rcases List.mem_cons.mp hk with h | h
        · right
          apply i4
          rw [getKey_cons, h]
          simp
        · exact i5 k h

theorem resolveVariables_sound (c : List Variable) : Sound c (resolveVariables c).values :=
  (resolveAll_spec c _ (Nat.lt_succ_self _) (mapKeys c) _ [] (fun k hk => hk)
    (fun k v hk => by cases hk) (fun k hk => by cases hk) (fun k m hk => by cases hk)).1

theorem resolveVariables_errSound (c : List Variable) : ErrSound c (resolveVariables c).errors :=
  (resolveAll_spec c _ (Nat.lt_succ_self _) (mapKeys c) _ [] (fun k hk => hk)
    (fun k v hk => by cases hk) (fun k hk => by cases hk) (fun k m hk => by cases hk)).2.1

theorem resolveVariables_total (c : List Variable) (k : Text) (hk : k ∈ mapKeys c) :
    (getKey (resolveVariables c).values k).isSome = true ∨
      (getKey (resolveVariables c).errors k).isSome = true :=
  (resolveAll_spec c _ (Nat.lt_succ_self _) (mapKeys c) _ [] (fun k hk => hk)
    (fun k v hk => by cases hk) (fun k hk => by cases hk) (fun k m hk => by cases hk)).2.2.2.2 k hk

/-- A key that has a value by the definitions is in `values` with it. -/
theorem resolveVariables_complete (c : List Variable) {k : Text} {h : Nat} {x : Num}
    (hk : k ∈ mapKeys c) (hx : valueOf c h k = some x) :
    getKey (resolveVariables c).values k = some x := by
  rcases resolveVariables_total c k hk with h1 | h1
  · obtain ⟨y, hy⟩ := Option.isSome_iff_exists.mp h1
    obtain ⟨h2, hy2⟩ := resolveVariables_sound c k y hy
    rw [hy, valueOf_det c hy2 hx]
  · obtain ⟨m, hm⟩ := Option.isSome_iff_exists.mp h1
    have := (resolveVariables_errSound c k m hm).1 h
    rw [this] at hx
    cases hx

/-- C2. Every variable name present in the collection is a key of exactly one
of the two maps that `resolveVariables` returns: of `values` or of `errors`,
never both and never neither. -/
theorem resolveVariables_values_xor_errors (vars : List Variable) (name : Text)
    (hname : name ∈ vars.map (fun v => v.name)) :
    ((getKey (resolveVariables vars).values name).isSome = true ∧
        getKey (resolveVariables vars).errors name = none) ∨
      (getKey (resolveVariables vars).values name = none ∧
        (getKey (resolveVariables vars).errors name).isSome = true) := by
  have hk : name ∈ mapKeys vars := by
    obtain ⟨v, hv, hvn⟩ := List.mem_map.mp hname
    exact (mem_mapKeys vars name).mpr ⟨v, hv, hvn⟩
  have hexcl : ∀ x m, getKey (resolveVariables vars).values name = some x →
      getKey (resolveVariables vars).errors name = some m → False := by
    intro x m hx hm
    obtain ⟨h, hh⟩ := resolveVariables_sound vars name x hx
    rw [(resolveVariables_errSound vars name m hm).1 h] at hh
    cases hh
  rcases resolveVariables_total vars name hk with h1 | h1
  · left
    refine ⟨h1, ?_⟩
    obtain ⟨x, hx⟩ := Option.isSome_iff_exists.mp h1
    cases hm : getKey (resolveVariables vars).errors name with
    | none => rfl
    | some m => exact absurd (hexcl x m hx hm) id
  · right
    refine ⟨?_, h1⟩
    obtain ⟨m, hm⟩ := Option.isSome_iff_exists.mp h1
    cases hx : getKey (resolveVariables vars).values name with
    | none => rfl
    | some x => exact absurd (hexcl x m hx hm) id

theorem resolveVariables_values_xor_errors_witness :
    ((getKey (resolveVariables initialVariables).values "GROSS".data).isSome = true ∧
        getKey (resolveVariables initialVariables).errors "GROSS".data = none) ∨
      (getKey (resolveVariables initialVariables).values "GROSS".data = none ∧
        (getKey (resolveVariables initialVariables).errors "GROSS".data).isSome = true) :=
  resolveVariables_values_xor_errors initialVariables "GROSS".data (by decide)

/-! ### References -/

theorem reaches_mem_of_closed (c : List Variable) (names : List Text)
    (hclosed : closedUnder c names = true) {a b : Text} (ha : a ∈ names)
    (hab : Reaches c a b) : b ∈ names := by
  induction hab with
  | refl => exact ha
  | tail _ hstep ih =>
    obtain ⟨vd, hm, ht, hmem⟩ := hstep
    have := List.all_eq_true.mp hclosed _ ih
    simp only [hm, ht, bne_self_eq_false, Bool.false_or, List.all_eq_true,
      decide_eq_true_eq] at this
    exact this _ hmem

theorem valueOf_refs (c : List Variable) {h : Nat} {a t : Text} {x : Num}
    (hx : valueOf c (h + 1) a = some x) (hr : Refs c a t) : ∃ y, valueOf c h t = some y := by
  obtain ⟨vd, hm, ht, hmem⟩ := hr
  rw [valueOf_succ, hm] at hx
  simp only [ht] at hx
  cases hs : substValues (valueOf c h) (pieces (trim vd.expression)) [] with
  | none => rw [hs] at hx; cases hx
  | some text => exact substValues_ident _ _ _ hs t hmem

/-- The value of a name by the definitions depends only on the definitions of
the names it reaches. -/
theorem valueOf_transfer (c1 c2 : List Variable) :
    ∀ h v x, (∀ n, Reaches c1 v n → mapGet c1 n = mapGet c2 n) →
      valueOf c1 h v = some x → valueOf c2 h v = some x := by
  intro h
  induction h with
  | zero => intro v x _ hx; cases hx
  | succ h ih =>
    intro v x hsame hx
    have hx0 := hx
    rw [valueOf_succ] at hx ⊢
    rw [← hsame v Relation.ReflTransGen.refl]
    cases hm : mapGet c1 v with
    | none => rw [hm] at hx; cases hx
    | some vd =>
      rw [hm] at hx
      simp only at hx ⊢
      cases ht : vd.type with
      | CONSTANT => rw [ht] at hx; exact hx
      | DYNAMIC =>
        rw [ht] at hx
        simp only at hx ⊢
        cases hs : substValues (valueOf c1 h) (pieces (trim vd.expression)) [] with
        | none => rw [hs] at hx; cases hx
        | some text =>
          have hcongr := substValues_congr (valueOf c1 h) (valueOf c2 h)
            (pieces (trim vd.expression)) (by
              intro n hn
              obtain ⟨y, hy⟩ := substValues_ident _ _ _ hs n hn
              have hstep : Refs c1 v n := ⟨vd, hm, ht, hn⟩
              rw [hy, ih n y (fun k hk => hsame k (Relation.ReflTransGen.head hstep hk)) hy]) []
          rw [← hcongr]
          exact hx

/-- C4. Failure containment: when two collections hold the same definitions of
a variable `v` and of every variable it references through any number of steps,
and `resolveVariables` puts `v` in `values` for the first, it puts `v` in
`values` with the same number for the second, whatever else the collections
hold and however that fails. -/
theorem resolveVariables_containment (c1 c2 : List Variable) (v : Text) (x : Num)
    (hsame : ∀ n, Reaches c1 v n → mapGet c1 n = mapGet c2 n)
    (hv : getKey (resolveVariables c1).values v = some x) :
    getKey (resolveVariables c2).values v = some x := by
  obtain ⟨h, hx⟩ := resolveVariables_sound c1 v x hv
  have hx2 := valueOf_transfer c1 c2 h v x hsame hx
  have hk : v ∈ mapKeys c2 := by
    cases hm : mapGet c2 v with
    | none =>
      rw [valueOf_none_of_mapGet_none c2 hm h] at hx2
      cases hx2
    | some w => exact mem_mapKeys_of_mapGet c2 hm
  exact resolveVariables_complete c2 hk hx2

theorem resolveVariables_containment_witness :
    getKey (resolveVariables
      ({ name := "X".data, type := VarType.DYNAMIC, expression := "Y + 1".data } ::
        initialVariables)).values "GROSS".data = some (Num.fin 15000) ∧
    getKey (resolveVariables
      ({ name := "X".data, type := VarType.DYNAMIC, expression := "Y + 1".data } ::
        initialVariables)).values "X".data = none := by
  refine ⟨resolveVariables_containment initialVariables _ "GROSS".data (Num.fin 15000) ?_
    (by decide!),
    by decide!⟩
  intro n hn
  have hmem := reaches_mem_of_closed initialVariables
    ["GROSS".data, "BASIC".data, "DA".data, "HRA".data] (by decide) (by decide) hn
  have hall : ∀ k ∈ ["GROSS".data, "BASIC".data, "DA".data, "HRA".data],
      mapGet initialVariables k =
        mapGet ({ name := "X".data, type := VarType.DYNAMIC, expression := "Y + 1".data } ::
          initialVariables) k := by decide
  exact hall n hmem

theorem refs_defined_of_check (c : List Variable) (h : refsDefined c = true) :
    ∀ a t, Refs c a t → (mapGet c t).isSome = true := by
  rintro a t ⟨vd, hm, ht, hmem⟩
  have := List.all_eq_true.mp h vd (mapGet_some c hm).1
  simp only [ht, bne_self_eq_false, Bool.false_or, List.all_eq_true] at this
  exact this t hmem

theorem valueOf_transGen (c : List Variable) {a b : Text} (hab : Relation.TransGen (Refs c) a b) :
    ∀ h x, valueOf c h a = some x → ∃ h1, h1 < h ∧ ∃ y, valueOf c h1 b = some y := by
  induction hab with
  | single hstep =>
    intro h x hx
    cases h with
    | zero => cases hx
    | succ h => exact ⟨h, Nat.lt_succ_self h, valueOf_refs c hx hstep⟩
  | tail _ hstep ih =>
    intro h x hx
    obtain ⟨h1, hlt, y, hy⟩ := ih h x hx
    cases h1 with
    | zero => cases hy
    | succ h1 =>
      exact ⟨h1, by omega, valueOf_refs c hy hstep⟩

theorem noValue_of_cycle (c : List Variable) {b : Text} (hb : Relation.TransGen (Refs c) b b) :
    NoValue c b := by
  intro h
  induction h using Nat.strong_induction_on with
  | _ h ih =>
    cases hv : valueOf c h b with
    | none => rfl
    | some x =>
      obtain ⟨h1, hlt, y, hy⟩ := valueOf_transGen c hb h x hv
      rw [ih h1 hlt] at hy
      cases hy

theorem valueOf_reaches (c : List Variable) {a b : Text} (hab : Reaches c a b) :
    ∀ h x, valueOf c h a = some x → ∃ h1 y, valueOf c h1 b = some y := by
  induction hab with
  | refl => intro h x hx; exact ⟨h, x, hx⟩
  | tail _ hstep ih =>
    intro h x hx
    obtain ⟨h1, y, hy⟩ := ih h x hx
    cases h1 with
    | zero => cases hy
    | succ h1 =>
      obtain ⟨z, hz⟩ := valueOf_refs c hy hstep
      exact ⟨h1, z, hz⟩

theorem noValue_of_reachesCycle (c : List Variable) {a : Text} (ha : ReachesCycle c a) :
    NoValue c a := by
  obtain ⟨b, hab, hb⟩ := ha
  intro h
  cases hv : valueOf c h a with
  | none => rfl
  | some x =>
    obtain ⟨h1, y, hy⟩ := valueOf_reaches c hab h x hv
    rw [noValue_of_cycle c hb h1] at hy
    cases hy

/-- A name that reaches a cycle does so through a name it mentions. -/
theorem reachesCycle_step (c : List Variable) {a : Text} (ha : ReachesCycle c a) :
    ∃ t, Refs c a t ∧ ReachesCycle c t := by
  obtain ⟨b, hab, hb⟩ := ha
  rcases Relation.ReflTransGen.cases_head hab with h | ⟨t, hat, htb⟩
  · subst h
    obtain ⟨t, hat, hta⟩ := Relation.TransGen.head'_iff.mp hb
    exact ⟨t, hat, a, hta, hb⟩
  · exact ⟨t, hat, b, htb, hb⟩

/-- When every referenced identifier is defined and every key without a value
reaches a cycle, a message with a cause is a circular-dependency message. -/
theorem cause_circular (c : List Variable)
    (hdef : ∀ a t, Refs c a t → (mapGet c t).isSome = true)
    (hcyc : ∀ a ∈ mapKeys c, NoValue c a → ReachesCycle c a) {e : Text} (he : Cause c e) :
    IsCircularMsg e := by
  cases he with
  | circular n => exact ⟨n, rfl⟩
  | invalidConstant n vd hm ht hp =>
    have hnv : NoValue c n := by
      intro h
      cases h with
      | zero => rfl
      | succ h =>
        rw [valueOf_succ, hm]
        simp only [ht, hp, if_true]
    obtain ⟨t, ⟨vd1, hm1, ht1, -⟩, -⟩ :=
      reachesCycle_step c (hcyc n (mem_mapKeys_of_mapGet c hm) hnv)
    rw [hm] at hm1
    cases hm1
    rw [ht] at ht1
    cases ht1
  | unknownVariable n t vd hm ht hmem hnone =>
    have := hdef n t ⟨vd, hm, ht, hmem⟩
    rw [hnone] at this
    cases this
  | evaluator n vd h text e hm ht hsub hev =>
    have hnv : NoValue c n := by
      intro h1
      cases h1 with
      | zero => rfl
      | succ h1 =>
        rw [valueOf_succ, hm]
        simp only [ht]
        cases hs : substValues (valueOf c h1) (pieces (trim vd.expression)) [] with
        | none => rfl
        | some text1 =>
          have := substValues_det c hs hsub
          subst this
          simp only [hev]
    obtain ⟨t, ⟨vd1, hm1, -, hmem⟩, htc⟩ :=
      reachesCycle_step c (hcyc n (mem_mapKeys_of_mapGet c hm) hnv)
    rw [hm] at hm1
    cases hm1
    obtain ⟨y, hy⟩ := substValues_ident _ _ _ hsub t hmem
    rw [noValue_of_reachesCycle c htc h] at hy
    cases hy

/-- C5. In a collection in which every referenced identifier is defined and
every variable that reaches no reference cycle resolves, each variable from
which a reference cycle can be reached is recorded in `errors` with a
circular-dependency message and has no entry in `values`. -/
theorem resolveVariables_cycle (c : List Variable)
    (hdef : ∀ a t, Refs c a t → (mapGet c t).isSome = true)
    (hok : ∀ a ∈ mapKeys c, ¬ReachesCycle c a →
      (getKey (resolveVariables c).values a).isSome = true)
    (a : Text) (ha : a ∈ mapKeys c) (hcyc : ReachesCycle c a) :
    (∃ m, getKey (resolveVariables c).errors a = some m ∧ IsCircularMsg m) ∧
      getKey (resolveVariables c).values a = none := by
  have hnone : getKey (resolveVariables c).values a = none := by
    cases hv : getKey (resolveVariables c).values a with
    | none => rfl
    | some x =>
      obtain ⟨h, hh⟩ := resolveVariables_sound c a x hv
      rw [noValue_of_reachesCycle c hcyc h] at hh
      cases hh
  have hall : ∀ b ∈ mapKeys c, NoValue c b → ReachesCycle c b := by
    intro b hb hnv
    by_contra hnc
    obtain ⟨x, hx⟩ := Option.isSome_iff_exists.mp (hok b hb hnc)
    obtain ⟨h, hh⟩ := resolveVariables_sound c b x hx
    rw [hnv h] at hh
    cases hh
  refine ⟨?_, hnone⟩
  rcases resolveVariables_total c a ha with h1 | h1
  · rw [hnone] at h1
    cases h1
  · obtain ⟨m, hm⟩ := Option.isSome_iff_exists.mp h1
    exact ⟨m, hm, cause_circular c hdef hall (resolveVariables_errSound c a m hm).2⟩

theorem resolveVariables_cycle_witness :
    (∃ m, getKey (resolveVariables
        [ { name := "A".data, type := VarType.DYNAMIC, expression := "A + 1".data },
          { name := "B".data, type := VarType.CONSTANT, expression := "2".data } ]).errors
        "A".data = some m ∧ IsCircularMsg m) ∧
      getKey (resolveVariables
        [ { name := "A".data, type := VarType.DYNAMIC, expression := "A + 1".data },
          { name := "B".data, type := VarType.CONSTANT, expression := "2".data } ]).values
        "A".data = none := by
  have hA : ReachesCycle
      [ { name := "A".data, type := VarType.DYNAMIC, expression := "A + 1".data },
        { name := "B".data, type := VarType.CONSTANT, expression := "2".data } ] "A".data :=
    ⟨"A".data, Relation.ReflTransGen.refl,
      Relation.TransGen.single
        ⟨{ name := "A".data, type := VarType.DYNAMIC, expression := "A + 1".data },
          by decide, rfl, by decide⟩⟩
  refine resolveVariables_cycle _ (refs_defined_of_check _ (by decide)) ?_ "A".data
    (by decide) hA
  intro a ha hn
  have hk : a = "A".data ∨ a = "B".data := by
    simpa [mapKeys] using ha
  rcases hk with h | h
  · subst h
    exact absurd hA hn
  · subst h
    decide!

/-! ## Theorems: formula execution -/

theorem substituteContext_first_bad (contextValues : List (Text × Text)) (n v : Text)
    (post : List Text) (hn : contextValue contextValues n = some v) :
    ∀ (pre : List Text) (expr : Text),
      (∀ m ∈ pre, ∃ w, contextValue contextValues m = some w ∧ trim w ≠ [] ∧
        (trim w).all isNumChar = true) →
      (trim v = [] →
        substituteContext contextValues (pre ++ n :: post) expr = .error (errCtxRequired n)) ∧
      (trim v ≠ [] → (trim v).all isNumChar = false →
        substituteContext contextValues (pre ++ n :: post) expr = .error (errCtxNumeric n)) := by
  intro pre
  induction pre with
  | nil =>
    intro expr _
    constructor
    · intro h
      simp [substituteContext, hn, h]
    · intro h1 h2
      simp [substituteContext, hn, h1, h2]
  | cons m rest ih =>
    intro expr hpre
    obtain ⟨w, hw, h1, h2⟩ := hpre m (List.mem_cons_self _ _)
    have ih1 := ih (replaceAllLoop (placeholder m) (trim w) expr 0)
      (fun k hk => hpre k (List.mem_cons_of_mem _ hk))
    simp only [List.cons_append, substituteContext, hw, h1, h2, if_false, Bool.not_true,
      Bool.false_eq_true]
    exact ih1

/-- The errors of step 1 for every placeholder whose value reads as a string
(any name but an untouched `__proto__`): taking the placeholders in order of
first occurrence, a first unacceptable binding that is blank gives the
missing-context-value message, and one with a character other than digits and
`.` gives the invalid-context-value message. -/
theorem performExecution_context_error (expression : Text)
    (contextValues : List (Text × Text)) (resolvedValues : List (Text × Num))
    (variableErrors : List (Text × Text)) (pre post : List Text) (n v : Text)
    (hnames : extractContextVars expression = pre ++ n :: post)
    (hpre : ∀ m ∈ pre, ∃ w, contextValue contextValues m = some w ∧ trim w ≠ [] ∧
      (trim w).all isNumChar = true)
    (hn : contextValue contextValues n = some v) :
    (trim v = [] →
      performExecution expression contextValues resolvedValues variableErrors =
        .error (errCtxRequired n)) ∧
    (trim v ≠ [] → (trim v).all isNumChar = false →
      performExecution expression contextValues resolvedValues variableErrors =
        .error (errCtxNumeric n)) := by
  obtain ⟨h1, h2⟩ := substituteContext_first_bad contextValues n v post hn pre expression hpre
  constructor
  · intro h
    simp [performExecution, hnames, h1 h]
  · intro h3 h4
    simp [performExecution, hnames, h2 h3 h4]

/-- C11. A formula with the placeholder `__proto__` and nothing typed for it:
its binding is blank, and the execution fails with the message of a
`TypeError`, not with the missing-context-value message naming it. -/
theorem performExecution_proto_placeholder :
    extractContextVars "\x7b\x7b#__proto__\x7d\x7d + 1".data = ["__proto__".data] ∧
      performExecution "\x7b\x7b#__proto__\x7d\x7d + 1".data [] [] [] =
        .error "execState.contextValues[ctxName].trim is not a function".data ∧
      performExecution "\x7b\x7b#__proto__\x7d\x7d + 1".data [] [] [] ≠
        .error (errCtxRequired "__proto__".data) := by
  refine ⟨by decide, by decide, by decide⟩

/-- C12. A formula with one placeholder inside the name of another: the names
are `y` and `x{{#y`, both bound to numerals, and no identifier remains;
replacing every placeholder occurrence by its binding gives `5 + 7`, which
evaluates to `12`, and the execution fails with the invalid-characters
message. -/
theorem performExecution_nested_placeholder :
    extractContextVars "\x7b\x7b#y\x7d\x7d + \x7b\x7b#x\x7b\x7b#y\x7d\x7d".data =
        ["y".data, "x\x7b\x7b#y".data] ∧
      fillPlaceholders [("y".data, "5".data), ("x\x7b\x7b#y".data, "7".data)]
        "\x7b\x7b#y\x7d\x7d + \x7b\x7b#x\x7b\x7b#y\x7d\x7d".data 0 = "5 + 7".data ∧
      identsOf "5 + 7".data = [] ∧
      evaluateExpression "5 + 7".data = .ok (Num.fin 12) ∧
      performExecution "\x7b\x7b#y\x7d\x7d + \x7b\x7b#x\x7b\x7b#y\x7d\x7d".data
        [("y".data, "5".data), ("x\x7b\x7b#y".data, "7".data)] [] [] =
        .error "Expression contains invalid characters.".data := by
  refine ⟨by decide, by decide, by decide, by decide!, by decide!⟩

end FormulaBuilder
